import Mathlib

/-!
# prosody-httpupload: authentication middleware and write-once store

A shallow embedding of `authenticator.go` and `server.go`.

Go strings are byte sequences; they are embedded as `List Char`.  The only
bytes the program itself inspects are ASCII (`/`, `.`, the decimal digits,
space and NUL), so nothing depends on how a non-ASCII character is encoded.

The keyed hash `hex(HMAC-SHA256(secret, payload))` of `authenticator.hmac`
is a parameter `H : Str → Str → Str` of the embedding.  Every call of
`authenticator.hmac` is recorded: the functions that may call it return,
next to their Go result, the list of payloads that were hashed.
-/

set_option autoImplicit false

namespace HttpUpload

/-- A Go string. -/
abbrev Str := List Char

/-! ## Library functions used by the authenticator -/

/-- Go maps `url.Values` and `http.Header`: a key is bound to a list of values. -/
abbrev Values := List (Str × List Str)

/-- Methods `url.Values.Get` and `http.Header.Get`: the first value bound to the
key, or the empty string when there is none. -/
def Values.Get (v : Values) (key : Str) : Str :=
  match v.lookup key with
  | some (x :: _) => x
  | _ => []

/-- Errors of package `strconv`. -/
inductive NumError where
  | ErrSyntax
  | ErrRange
  | ErrBase
  | ErrBitSize
deriving DecidableEq, Repr

/-- Constant `maxUint64` of `strconv`. -/
def maxUint64 : Nat := 2 ^ 64 - 1

/-- Function `lower` of `strconv`: `c | ('x' - 'X')` on a byte. -/
def lower (c : Nat) : Nat := c ||| 32

/-- The digit switch in the loop of `strconv.ParseUint` (no underscores: the
base is not 0). -/
def digitVal (c : Char) : Option Nat :=
  if 48 ≤ c.toNat ∧ c.toNat ≤ 57 then some (c.toNat - 48)
  else if 97 ≤ lower c.toNat ∧ lower c.toNat ≤ 122 then some (lower c.toNat - 97 + 10)
  else none

/-- The loop of `strconv.ParseUint` over the bytes of the string; `n` is a
`uint64`. -/
def parseUintLoop (base cutoff maxVal : Nat) : Str → Nat → Except NumError Nat
  | [], n => .ok n
  | c :: cs, n =>
    match digitVal c with
    | none => .error .ErrSyntax
    | some d =>
      if d ≥ base then .error .ErrSyntax
      else if n ≥ cutoff then .error .ErrRange
      else
        let n0 := (n * base) % 2 ^ 64
        let n1 := (n0 + d) % 2 ^ 64
        if n1 < n0 ∨ n1 > maxVal then .error .ErrRange
        else parseUintLoop base cutoff maxVal cs n1

/-- Function `strconv.ParseUint` for an explicit base `2 ≤ base ≤ 36` and a bit
size `1 ≤ bitSize ≤ 64`.  Base 0 (prefix detection) and bit size 0 are not
used by this program and are answered with the base and bit-size errors. -/
def ParseUint (s : Str) (base bitSize : Nat) : Except NumError Nat :=
  if s = [] then .error .ErrSyntax
  else if ¬ (2 ≤ base ∧ base ≤ 36) then .error .ErrBase
  else if bitSize = 0 ∨ bitSize > 64 then .error .ErrBitSize
  else
    let cutoff := maxUint64 / base + 1
    let maxVal := 2 ^ bitSize - 1
    parseUintLoop base cutoff maxVal s 0

/-! ## authenticator.go -/

/-- Constant `v1Arg`. -/
def v1Arg : Str := ['v']

/-- Constant `v2Arg`. -/
def v2Arg : Str := ['v', '2']

/-- Constant `http.MethodPut`. -/
def MethodPut : Str := ['P', 'U', 'T']

/-- Header key `Content-Length`. -/
def hdrContentLength : Str := "Content-Length".toList

/-- Header key `Content-Type`. -/
def hdrContentType : Str := "Content-Type".toList

/-- The space separator of the version-1 payload. -/
def SP : Char := Char.ofNat 32

/-- The NUL separator of the version-2 payload. -/
def NUL : Char := Char.ofNat 0

/-- Type `url.URL`, the field the program reads. -/
structure URL where
  Path : Str
deriving DecidableEq, Repr

/-- Type `http.Request` as the program sees it.  `Form` is the
form as `r.ParseForm()` leaves it and `parseFormErr` tells whether that call
returned an error; `formBody` tells whether the Content-Type names the media
type `application/x-www-form-urlencoded`, in which case `r.ParseForm()` reads
the body of a PUT request to its end; `Body` is the byte stream of the body
and `bodyErr` tells whether reading it ends in an error. -/
structure Request where
  Method : Str
  URL : URL
  Header : Values
  Form : Values
  parseFormErr : Bool
  formBody : Bool
  Body : Str
  bodyErr : Bool
deriving DecidableEq, Repr

/-- The request as a successful `r.ParseForm()` leaves it for the next handler:
a form-encoded body has been read to its end, so nothing of it is left and the
next read meets the end of the stream. -/
def Request.afterParseForm (r : Request) : Request :=
  if r.formBody then { r with Body := [], bodyErr := false } else r

/-- Type `authenticator`. -/
structure authenticator where
  Secret : Str
deriving DecidableEq, Repr

/-- Function `newAuthenticator`. -/
def newAuthenticator (secret : Str) : authenticator := { Secret := secret }

/-- Method `authenticator.hmac`: the hex digest, and the record of the call. -/
def authenticator.hmac (H : Str → Str → Str) (a : authenticator) (payload : Str) :
    Str × List Str :=
  (H a.Secret payload, [payload])

/-- Method `authenticator.contentLength`. -/
def authenticator.contentLength (_a : authenticator) (r : Request) : Str :=
  let cl := r.Header.Get hdrContentLength
  match ParseUint cl 10 64 with
  | .error _ => []
  | .ok _ => cl

/-- Method `authenticator.isV1`. -/
def authenticator.isV1 (_a : authenticator) (r : Request) : Bool :=
  r.Form.Get v1Arg != []

/-- Method `authenticator.isV2`. -/
def authenticator.isV2 (_a : authenticator) (r : Request) : Bool :=
  r.Form.Get v2Arg != []

/-- Method `authenticator.authenticateV1`, with the payloads it hashed. -/
def authenticator.authenticateV1 (H : Str → Str → Str) (a : authenticator) (r : Request) :
    Bool × List Str :=
  let v := r.Form.Get v1Arg
  if v = [] then (false, [])
  else
    let cl := a.contentLength r
    if cl = [] then (false, [])
    else
      let hash := a.hmac H (r.URL.Path ++ [SP] ++ cl)
      (decide (v = hash.1), hash.2)

/-- Method `authenticator.authenticateV2`, with the payloads it hashed. -/
def authenticator.authenticateV2 (H : Str → Str → Str) (a : authenticator) (r : Request) :
    Bool × List Str :=
  let v := r.Form.Get v2Arg
  if v = [] then (false, [])
  else
    let cl := a.contentLength r
    if cl = [] then (false, [])
    else
      let hash := a.hmac H (r.URL.Path ++ [NUL] ++ cl ++ [NUL] ++ r.Header.Get hdrContentType)
      (decide (v = hash.1), hash.2)

/-- What the middleware does with a request: it writes a status itself, or it
calls the wrapped handler. -/
inductive Outcome where
  | writeHeader (code : Nat)
  | serveHTTP
deriving DecidableEq, Repr

/-- Constant `http.StatusCreated`. -/
def StatusCreated : Nat := 201

/-- Constant `http.StatusBadRequest`. -/
def StatusBadRequest : Nat := 400

/-- Constant `http.StatusMovedPermanently`. -/
def StatusMovedPermanently : Nat := 301

/-- Constant `http.StatusNotFound`. -/
def StatusNotFound : Nat := 404

/-- Constant `http.StatusForbidden`. -/
def StatusForbidden : Nat := 403

/-- Constant `http.StatusMethodNotAllowed`. -/
def StatusMethodNotAllowed : Nat := 405

/-- Constant `http.StatusConflict`. -/
def StatusConflict : Nat := 409

/-- Constant `http.StatusInternalServerError`. -/
def StatusInternalServerError : Nat := 500

/-- Method `authenticator.authenticate`: the outcome of the middleware on a
request and the payloads that were hashed on the way. -/
def authenticator.authenticate (H : Str → Str → Str) (a : authenticator) (r : Request) :
    Outcome × List Str :=
  if r.Method ≠ MethodPut then (.writeHeader StatusMethodNotAllowed, [])
  else if r.parseFormErr then (.writeHeader StatusBadRequest, [])
  else if a.isV2 r then
    let res := a.authenticateV2 H r
    if res.1 then (.serveHTTP, res.2)
    else (.writeHeader StatusForbidden, res.2)
  else if a.isV1 r then
    let res := a.authenticateV1 H r
    if res.1 then (.serveHTTP, res.2)
    else (.writeHeader StatusForbidden, res.2)
  else (.writeHeader StatusForbidden, [])

/-! ## Package `path` -/

/-- The local variables of `path.Clean` that change in its loop: the bytes
written to the buffer `out`, kept with the last written byte first (so
`out.w` is the length), and `dotdot`.  The `lazybuf` of the library, which
delays the allocation of the buffer, is embedded as the bytes it holds. -/
structure CleanState where
  out : List Char
  dotdot : Nat
deriving DecidableEq, Repr

/-- The inner loop of the `..` case of `path.Clean`,
`for out.w > dotdot && out.index(out.w) != '/' { out.w-- }`: the first argument
is the byte `out.index(out.w)` that was dropped last, the second the bytes
still in the buffer. -/
def backtrack (dotdot : Nat) : Char → List Char → List Char
  | _, [] => []
  | c, c1 :: rest =>
    if (c1 :: rest).length > dotdot ∧ c ≠ '/' then backtrack dotdot c1 rest
    else c1 :: rest

/-- The `..` case of `path.Clean`. -/
def dotdotElem (rooted : Bool) (st : CleanState) : CleanState :=
  if st.out.length > st.dotdot then
    match st.out with
    | [] => st
    | c :: rest => { st with out := backtrack st.dotdot c rest }
  else if !rooted then
    let out1 := if st.out.length > 0 then '/' :: st.out else st.out
    let out2 := '.' :: '.' :: out1
    { out := out2, dotdot := out2.length }
  else st

/-- The start of the default case of `path.Clean`: add a slash if needed. -/
def addSlash (rooted : Bool) (st : CleanState) : CleanState :=
  if (rooted ∧ st.out.length ≠ 1) ∨ (¬ rooted ∧ st.out.length ≠ 0) then
    { st with out := '/' :: st.out }
  else st

/-- The loop `for r < n` of `path.Clean` over the bytes `path[r:]` still to
read.  The flag tells whether control is inside the copy loop of the default
case (`for ; r < n && path[r] != '/'; r++`); when that loop meets a slash it
ends, and the main loop then skips the slash as an empty element. -/
def cleanLoop (rooted : Bool) : Bool → Str → CleanState → CleanState
  | _, [], st => st
  | true, c :: rest, st =>
    if c = '/' then cleanLoop rooted false rest st
    else cleanLoop rooted true rest { st with out := c :: st.out }
  | false, [c], st =>
    if c = '/' then st
    else if c = '.' then st
    else { (addSlash rooted st) with out := c :: (addSlash rooted st).out }
  | false, c :: d :: rest, st =>
    if c = '/' then cleanLoop rooted false (d :: rest) st
    else if c = '.' ∧ d = '/' then cleanLoop rooted false (d :: rest) st
    else if c = '.' ∧ d = '.' ∧ (rest = [] ∨ rest.head? = some '/') then
      cleanLoop rooted false rest (dotdotElem rooted st)
    else
      cleanLoop rooted true (d :: rest)
        { (addSlash rooted st) with out := c :: (addSlash rooted st).out }

/-- Function `path.Clean`. -/
def Clean (path : Str) : Str :=
  if path = [] then ['.']
  else
    let rooted : Bool := path.head? = some '/'
    let st :=
      if rooted then cleanLoop rooted false path.tail { out := ['/'], dotdot := 1 }
      else cleanLoop rooted false path { out := [], dotdot := 0 }
    if st.out.length = 0 then ['.'] else st.out.reverse

/-- The loop of `path.Join` that builds `buf`. -/
def joinBuf : List Str → Str → Str
  | [], buf => buf
  | e :: es, buf =>
    if buf.length > 0 ∨ e ≠ [] then
      joinBuf es ((if buf.length > 0 then buf ++ ['/'] else buf) ++ e)
    else joinBuf es buf

/-- Function `path.Join`. -/
def Join (elems : List Str) : Str :=
  if (elems.map List.length).sum = 0 then []
  else Clean (joinBuf elems [])

/-- Function `path.Split`, first result: the path up to and including its
last slash. -/
def SplitDir (path : Str) : Str :=
  (path.reverse.dropWhile (fun c => c != '/')).reverse

/-- Function `path.Dir`. -/
def Dir (path : Str) : Str := Clean (SplitDir path)

/-! ## Package `os`: the file system

The file system is a finite map from path names to nodes, looked up by the
name as a string (the program only ever passes names that went through
`path.Clean`).  `Mkdir` and `Create` do not look the parent directory up: the
program calls them only right after `MkdirAll` has ensured it. -/

/-- What a path names: a directory, or a regular file with its bytes. -/
inductive Node where
  | dir
  | file (content : Str)
deriving DecidableEq, Repr

/-- The file-system state; the first binding of a name is the current one. -/
abbrev FS := List (Str × Node)

/-- The error conditions of package `os` that the program can meet. -/
inductive Errno where
  | ErrExist
  | ErrNotExist
  | ENOTDIR
  | EISDIR
deriving DecidableEq, Repr

/-- A Go `error` value: an error of package `os`, or an error that wraps
another one (`fmt.Errorf` with `%w`). -/
inductive Error where
  | os (e : Errno)
  | wrap (inner : Error)
deriving DecidableEq, Repr

/-- Function `errors.Is` against a sentinel of package `os`: it looks through
the chain of wrapped errors. -/
def Error.Is : Error → Errno → Bool
  | .os e, target => decide (e = target)
  | .wrap inner, target => inner.Is target

/-- Function `os.Stat`. -/
def Stat (fs : FS) (name : Str) : Except Error Node :=
  match fs.lookup name with
  | some n => .ok n
  | none => .error (.os .ErrNotExist)

/-- Function `os.Mkdir`: the error, if any, and the new state. -/
def Mkdir (fs : FS) (name : Str) : Option Error × FS :=
  match fs.lookup name with
  | some _ => (some (.os .ErrExist), fs)
  | none => (none, (name, .dir) :: fs)

/-- The parent that `os.MkdirAll` computes: skip trailing separators, scan
backward over the last element, and take what stands before the separator
found. -/
def mkdirAllParent (path : Str) : Str :=
  ((path.reverse.dropWhile (fun c => c == '/')).dropWhile (fun c => c != '/')).tail.reverse

/-- Function `os.MkdirAll`, with a bound on the depth of its recursion; at
depth 0 the parent is not visited. -/
def MkdirAllAux : Nat → FS → Str → Option Error × FS
  | fuel, fs, path =>
    match Stat fs path with
    | .ok .dir => (none, fs)
    | .ok (.file _) => (some (.os .ENOTDIR), fs)
    | .error _ =>
      let mk (fs1 : FS) : Option Error × FS :=
        match Mkdir fs1 path with
        | (none, fs2) => (none, fs2)
        | (some e, fs2) =>
          match Stat fs2 path with
          | .ok .dir => (none, fs2)
          | _ => (some e, fs2)
      match fuel with
      | 0 => mk fs
      | fuel + 1 =>
        if (mkdirAllParent path).length > 0 then
          match MkdirAllAux fuel fs (mkdirAllParent path) with
          | (some e, fs1) => (some e, fs1)
          | (none, fs1) => mk fs1
        else mk fs

/-- Function `os.MkdirAll`: the recursion goes from a path to its strictly
shorter parent, so the length of the path bounds its depth. -/
def MkdirAll (fs : FS) (path : Str) : Option Error × FS :=
  MkdirAllAux path.length fs path

/-- A value of type `*os.File`: the name of the open file. -/
abbrev File := Str

/-- Function `os.Create`: open for writing, create if absent, truncate. -/
def Create (fs : FS) (name : Str) : Except Error File × FS :=
  match fs.lookup name with
  | some .dir => (.error (.os .EISDIR), fs)
  | _ => (.ok name, (name, .file []) :: fs)

/-- Writing bytes to an open file appends them to the content that the current
binding of its name holds. -/
def FS.write : FS → File → Str → FS
  | [], _, _ => []
  | (name, node) :: fs, f, bytes =>
    if name = f then
      match node with
      | .file old => (name, .file (old ++ bytes)) :: fs
      | .dir => (name, node) :: fs
    else (name, node) :: FS.write fs f bytes

/-! ## server.go -/

/-- Type `Config`. -/
structure Config where
  ListenAddress : Str
  Secret : Str
  StoragePath : Str
deriving DecidableEq, Repr

/-- Type `Server`.  The router with its routes is `Server.ServeHTTP` below; the
mutex is what makes `Server.createFile` one indivisible step on the state. -/
structure Server where
  config : Config
  auth : authenticator
deriving DecidableEq, Repr

/-- Function `New`, without the check of the configuration. -/
def New (c : Config) : Server := { config := c, auth := newAuthenticator c.Secret }

/-- The full path that `Server.createFile` computes for its argument. -/
def Server.fullpath (s : Server) (filepath : Str) : Str :=
  Join [s.config.StoragePath, Clean filepath]

/-- Method `Server.createFile`: the handle or the error, and the new state. -/
def Server.createFile (s : Server) (fs : FS) (filepath : Str) : Except Error File × FS :=
  let fullpath := s.fullpath filepath
  match MkdirAll fs (Dir fullpath) with
  | (some err, fs1) => (.error (.wrap err), fs1)
  | (none, fs1) =>
    match Stat fs1 fullpath with
    | .error err =>
      if err.Is .ErrNotExist then Create fs1 fullpath
      else (.error (.wrap err), fs1)
    | .ok _ => (.error (.os .ErrExist), fs1)

/-- Method `Server.putFile`: the status written and the new state. -/
def Server.putFile (s : Server) (fs : FS) (r : Request) : Nat × FS :=
  let filepath := Clean r.URL.Path
  if filepath = ['.'] then (StatusForbidden, fs)
  else
    match s.createFile fs filepath with
    | (.error err, fs1) =>
      if err.Is .ErrExist then (StatusConflict, fs1)
      else (StatusInternalServerError, fs1)
    | (.ok file, fs1) =>
      let fs2 := fs1.write file r.Body
      if r.bodyErr then (StatusInternalServerError, fs2)
      else (StatusCreated, fs2)

/-- The PUT route of `Server.setupRoutes`: `putFile` behind the `authenticate`
middleware. -/
def Server.putRoute (H : Str → Str → Str) (s : Server) (fs : FS) (r : Request) : Nat × FS :=
  match (s.auth.authenticate H r).1 with
  | .writeHeader code => (code, fs)
  | .serveHTTP => s.putFile fs r.afterParseForm

/-- Constant `http.MethodGet`. -/
def MethodGet : Str := ['G', 'E', 'T']

/-- Constant `http.MethodHead`. -/
def MethodHead : Str := ['H', 'E', 'A', 'D']

/-- Function `cleanPath` of the router library (gorilla/mux): the canonical form
of a URL path, rooted and cleaned, with a trailing slash kept. -/
def cleanPath (p : Str) : Str :=
  if p = [] then ['/']
  else
    let p1 := if p.head? = some '/' then p else '/' :: p
    let np := Clean p1
    if p1.getLast? = some '/' ∧ np ≠ ['/'] then np ++ ['/'] else np

/-- What the server does with a request: a status written by the router, the
middleware or `putFile`; a redirect (status 301) to a path; or the hand-over to
`http.FileServer`, which is not embedded. -/
inductive Response where
  | status (code : Nat)
  | redirect (location : Str)
  | fileServer
deriving DecidableEq, Repr

/-- The router that `Server.setupRoutes` configures, as `mux.Router.ServeHTTP`
runs it: a path that is not in canonical form is redirected to that form; then
the routes are tried in the order of their registration, the route for `/`
with `http.NotFoundHandler` first, for every method; then GET and HEAD go to
the file server and PUT goes through `authenticate` to `putFile`; a request
that matches no route for its method is answered 405. -/
def Server.ServeHTTP (H : Str → Str → Str) (s : Server) (fs : FS) (r : Request) :
    Response × FS :=
  if cleanPath r.URL.Path ≠ r.URL.Path then (.redirect (cleanPath r.URL.Path), fs)
  else if r.URL.Path = ['/'] then (.status StatusNotFound, fs)
  else if r.Method = MethodGet ∨ r.Method = MethodHead then (.fileServer, fs)
  else if r.Method = MethodPut then
    (.status (s.putRoute H fs r).1, (s.putRoute H fs r).2)
  else (.status StatusMethodNotAllowed, fs)

/-- A run of `Server.createFile` calls, one after the other as the lock
serialises them: for each call its argument, the state before, the result and
the state after. -/
structure CreateStep where
  filepath : Str
  before : FS
  result : Except Error File
  after : FS

/-- The steps of a sequence of `Server.createFile` calls from a state. -/
def Server.createRun (s : Server) : FS → List Str → List CreateStep
  | _, [] => []
  | fs, p :: ps =>
    let res := s.createFile fs p
    { filepath := p, before := fs, result := res.1, after := res.2 } :: s.createRun res.2 ps


/-! ## Path elements -/

/-- A path element that `path.Clean` keeps: not empty, without a slash, and
neither `.` nor `..`. -/
def Normal (seg : Str) : Prop :=
  seg ≠ [] ∧ '/' ∉ seg ∧ seg ≠ ['.'] ∧ seg ≠ ['.', '.']

instance : DecidablePred Normal := fun seg => by unfold Normal; infer_instance

/-- The path `/s1/s2/.../sn` of the elements `s1`, ..., `sn`. -/
def slashed : List Str → Str
  | [] => []
  | s :: t => '/' :: s ++ slashed t

/-- The default case of `path.Clean` on a whole element: a slash if needed, then
the bytes of the element. -/
def pushSeg (rooted : Bool) (st : CleanState) (seg : Str) : CleanState :=
  { (addSlash rooted st) with out := seg.reverse ++ (addSlash rooted st).out }

/-- One turn of the loop of `path.Clean` seen on a whole path element: an empty
element and `.` change nothing, `..` backtracks, any other element is copied. -/
def segStep (rooted : Bool) (st : CleanState) (seg : Str) : CleanState :=
  if seg = [] ∨ seg = ['.'] then st
  else if seg = ['.', '.'] then dotdotElem rooted st
  else pushSeg rooted st seg

/-- The buffer of `path.Clean` on a rooted path after it kept the elements
`segs`: the root slash alone, or `/s1/.../sn`. -/
def rootBuf (segs : List Str) : Str :=
  if segs = [] then ['/'] else slashed segs

/-- The state of the loop of `path.Clean` on a rooted path: `dotdot` is 1 and
the buffer holds the root slash and the elements kept so far. -/
def RootInv (st : CleanState) : Prop :=
  st.dotdot = 1 ∧ ∃ segs : List Str, (∀ s ∈ segs, Normal s) ∧ st.out = (rootBuf segs).reverse

/-- Whether a step of a run of `Server.createFile` returned a file handle. -/
def CreateStep.created (st : CreateStep) : Bool :=
  match st.result with
  | .ok _ => true
  | .error _ => false

/-- A run of uploads through `Server.putFile`, one after the other: for each
request the state before, the status written and the state after. -/
structure PutStep where
  request : Request
  before : FS
  status : Nat
  after : FS

/-- The steps of a sequence of `Server.putFile` calls from a state. -/
def Server.putRun (s : Server) : FS → List Request → List PutStep
  | _, [] => []
  | fs, r :: rs =>
    let res := s.putFile fs r
    { request := r, before := fs, status := res.1, after := res.2 } :: s.putRun res.2 rs

/-- The file system `fs2` has every name that `fs1` has, directories are still
directories and files are still files. -/
def Grows (fs1 fs2 : FS) : Prop :=
  ∀ k : Str, (fs1.lookup k = some Node.dir → fs2.lookup k = some Node.dir) ∧
    ((∃ c, fs1.lookup k = some (Node.file c)) → ∃ c, fs2.lookup k = some (Node.file c))

/-- The full path `F` names something and its parent `path.Dir F` is a
directory. -/
def Taken (F : Str) (fs : FS) : Prop :=
  fs.lookup (Dir F) = some Node.dir ∧ ∃ n, fs.lookup F = some n

/-- The path `s1/.../sn` of the elements `s1`, ..., `sn`, without a leading
slash. -/
def unslashed (segs : List Str) : Str := (slashed segs).tail

/-- The elements `..`, `k` times. -/
def dots (k : Nat) : List Str := List.replicate k ['.', '.']

/-- The state of the loop of `path.Clean` on a path that is not rooted: the
buffer holds `k` elements `..` and then kept elements, and `dotdot` is where
the elements `..` end. -/
def RelInv (st : CleanState) : Prop :=
  ∃ (k : Nat) (segs : List Str), (∀ s ∈ segs, Normal s) ∧
    st.out = (unslashed (dots k ++ segs)).reverse ∧
    st.dotdot = (unslashed (dots k)).length

/-- The name of `s1/.../sn` under the cleaned directory `root`, as `path.Join`
writes it: the root, a slash and the elements; under the root `.` the elements
alone, and under the root `/` the elements after the one slash.  Without
elements it is the root itself. -/
def under (root : Str) (segs : List Str) : Str :=
  if segs = [] then root
  else if root = ['.'] then unslashed segs
  else if root = ['/'] then slashed segs
  else root ++ slashed segs

/-- The name `k` lies under the directory `root`: it is `under root` of at least
one element, the elements not empty, without a slash and neither `.` nor
`..`. -/
def Inside (root k : Str) : Prop :=
  ∃ segs : List Str, segs ≠ [] ∧ (∀ s ∈ segs, Normal s) ∧ k = under root segs

/-! ## Sample inputs -/

/-- A stand-in for the keyed hash on sample inputs: secret and payload, joined. -/
def sampleH : Str → Str → Str := fun secret payload => secret ++ payload

/-- A sample authenticator with the secret `s3cr3t`. -/
def sampleAuth : authenticator := newAuthenticator "s3cr3t".toList

/-- A PUT request for a path with a form and a header, and nothing else. -/
def mkRequest (path : String) (form header : List (String × String)) : Request :=
  { Method := MethodPut
    URL := { Path := path.toList }
    Header := header.map (fun kv => (kv.1.toList, [kv.2.toList]))
    Form := form.map (fun kv => (kv.1.toList, [kv.2.toList]))
    parseFormErr := false
    formBody := false
    Body := []
    bodyErr := false }

/-- A sample server that stores under `data`. -/
def sampleServer : Server :=
  New { ListenAddress := ":8889".toList, Secret := "s3cr3t".toList,
        StoragePath := "data".toList }

/-- A sample server that stores under the working directory itself. -/
def dotServer : Server :=
  New { ListenAddress := ":8889".toList, Secret := "s3cr3t".toList,
        StoragePath := ".".toList }

/-- A sample server that stores under the root directory of the file system. -/
def slashServer : Server :=
  New { ListenAddress := ":8889".toList, Secret := "s3cr3t".toList,
        StoragePath := "/".toList }

/-- A file system in which the working directory and the storage directory
`data` exist and are empty. -/
def sampleFS : FS := [("data".toList, Node.dir), (".".toList, Node.dir)]

/-- A file system in which only the root directory exists. -/
def slashFS : FS := [("/".toList, Node.dir)]

/-- An authorised upload of ten bytes to `/a`: the version-1 token is the one
for the path `/a` and the length `10`. -/
def reqA : Request :=
  { mkRequest "/a" [("v", "s3cr3t/a 10")] [("Content-Length", "10")] with
    Body := "0123456789".toList }

/-- An authorised PUT request for the path `/`, without a body. -/
def reqRoot : Request :=
  mkRequest "/" [("v", "s3cr3t/ 0")] [("Content-Length", "0")]

/-- An authorised PUT request for the path `/a/..`, without a body. -/
def reqRootDots : Request :=
  mkRequest "/a/.." [("v", "s3cr3t/a/.. 0")] [("Content-Length", "0")]

/-- Three arguments of `createFile` that resolve to the full path
`data/a/b.png`, and one that does not. -/
def samplePaths : List Str :=
  ["/a/b.png".toList, "/a/./b.png".toList, "/c.png".toList, "/x/../a/b.png".toList]

/-- An upload of the given bytes to the given path. -/
def mkUpload (path body : String) : Request :=
  { mkRequest path [] [] with Body := body.toList }

/-- Two uploads to the same path and one to another. -/
def sampleUploads : List Request :=
  [mkUpload "/a/b.png" "first", mkUpload "/a/./b.png" "second", mkUpload "/c.png" "third"]

/-- A request with a valid version-1 token. -/
def reqV1 : Request :=
  mkRequest "/a/b.png" [("v", "s3cr3t/a/b.png 10")] [("Content-Length", "10")]

/-- The token of `reqV1` on another path and length: the path ends in a space and
a digit. -/
def reqV1Moved : Request :=
  mkRequest "/a/b.png 1" [("v", "s3cr3t/a/b.png 10")] [("Content-Length", "0")]

/-- The version-2 token for `/a/b.png`, length `10` and type `image/png`. -/
def tokenV2 : Str :=
  sampleH sampleAuth.Secret
    ("/a/b.png".toList ++ [NUL] ++ "10".toList ++ [NUL] ++ "image/png".toList)

/-- A request with a token in `v2` and one in `v`, and a declared content type. -/
def mkRequestV2 (v2 v ctype : Str) : Request :=
  { Method := MethodPut
    URL := { Path := "/a/b.png".toList }
    Header := [(hdrContentLength, ["10".toList]), (hdrContentType, [ctype])]
    Form := [(v2Arg, [v2]), (v1Arg, [v])]
    parseFormErr := false
    formBody := false
    Body := []
    bodyErr := false }

/-- A request with a valid version-2 token. -/
def reqV2 : Request := mkRequestV2 tokenV2 [] "image/png".toList

/-- The token of `reqV2` replayed with another declared content type. -/
def reqV2Replayed : Request := mkRequestV2 tokenV2 [] "text/html".toList

/-- A request whose `v2` token is wrong and whose `v` token is right. -/
def reqBadV2 : Request :=
  mkRequestV2 "0000".toList "s3cr3t/a/b.png 10".toList "image/png".toList

/-- A request whose `v2` parameter is present with an empty value and whose `v`
token is right. -/
def reqEmptyV2 : Request :=
  mkRequestV2 [] "s3cr3t/a/b.png 10".toList "image/png".toList

/-- A PUT request without tokens. -/
def reqNoToken : Request := mkRequest "/a/b.png" [] [("Content-Length", "10")]

/-- A PUT request with a token and a Content-Length that is not a number. -/
def reqBadLength : Request :=
  mkRequest "/a/b.png" [("v", "s3cr3t/a/b.png abc")] [("Content-Length", "abc")]

/-- A PUT request with a token and no Content-Length header. -/
def reqNoLength : Request := mkRequest "/a/b.png" [("v2", "0000")] []

/-! ## Lemmas on the library functions -/

theorem digitVal_decimal {c : Char} {d : Nat} (h : digitVal c = some d) (hd : d < 10) :
    48 ≤ c.toNat ∧ c.toNat ≤ 57 := by
  unfold digitVal at h
  split at h
  · assumption
  · split at h
    · simp at h; omega
    · simp at h

theorem parseUintLoop_decimal (cutoff maxVal : Nat) :
    ∀ (s : Str) (n m : Nat), parseUintLoop 10 cutoff maxVal s n = .ok m →
      ∀ c ∈ s, 48 ≤ c.toNat ∧ c.toNat ≤ 57 := by
  intro s
  induction s with
  | nil => intro n m _ c hc; simp at hc
  | cons x xs ih =>
    intro n m h c hc
    unfold parseUintLoop at h
    cases hx : digitVal x with
    | none => simp [hx] at h
    | some d =>
      simp only [hx] at h
      by_cases hd : d ≥ 10
      · simp [hd] at h
      · by_cases hn : n ≥ cutoff
        · simp [hd, hn] at h
        · simp only [hd, hn, if_false] at h
          split at h
          · simp at h
          · rcases List.mem_cons.mp hc with rfl | hc
            · exact digitVal_decimal hx (by omega)
            · exact ih _ _ h c hc

theorem ParseUint_decimal {s : Str} {m : Nat} (h : ParseUint s 10 64 = .ok m) :
    s ≠ [] ∧ ∀ c ∈ s, 48 ≤ c.toNat ∧ c.toNat ≤ 57 := by
  unfold ParseUint at h
  by_cases hs : s = []
  · simp [hs] at h
  · refine ⟨hs, ?_⟩
    simp only [hs, if_false] at h
    norm_num at h
    exact parseUintLoop_decimal _ _ s 0 m h

theorem SP_not_mem_of_ParseUint {s : Str} {m : Nat} (h : ParseUint s 10 64 = .ok m) :
    SP ∉ s := by
  intro hmem
  have := (ParseUint_decimal h).2 SP hmem
  have h32 : SP.toNat = 32 := by decide
  omega

theorem NUL_not_mem_of_ParseUint {s : Str} {m : Nat} (h : ParseUint s 10 64 = .ok m) :
    NUL ∉ s := by
  intro hmem
  have := (ParseUint_decimal h).2 NUL hmem
  have h0 : NUL.toNat = 0 := by decide
  omega

theorem contentLength_of_ok (a : authenticator) (r : Request) {m : Nat}
    (h : ParseUint (r.Header.Get hdrContentLength) 10 64 = .ok m) :
    a.contentLength r = r.Header.Get hdrContentLength ∧ a.contentLength r ≠ [] := by
  have hne := (ParseUint_decimal h).1
  simp [authenticator.contentLength, h, hne]

theorem contentLength_of_error (a : authenticator) (r : Request)
    (h : ∀ m, ParseUint (r.Header.Get hdrContentLength) 10 64 ≠ .ok m) :
    a.contentLength r = [] := by
  unfold authenticator.contentLength
  cases hp : ParseUint (r.Header.Get hdrContentLength) 10 64 with
  | error e => simp only [hp]
  | ok m => exact absurd hp (h m)

/-- A separator that does not occur to its right splits a string in one way only. -/
theorem append_sep_inj {α : Type} {a : α} {l1 l2 r1 r2 : List α}
    (h1 : a ∉ r1) (h2 : a ∉ r2) (h : l1 ++ a :: r1 = l2 ++ a :: r2) :
    l1 = l2 ∧ r1 = r2 := by
  rcases List.append_eq_append_iff.mp h with ⟨t, ht, hr⟩ | ⟨t, ht, hr⟩
  · cases t with
    | nil => simp at ht hr; exact ⟨ht.symm, hr⟩
    | cons x xs =>
      simp at hr
      exact absurd (by rw [hr.2]; simp) h1
  · cases t with
    | nil => simp at ht hr; exact ⟨ht, hr.symm⟩
    | cons x xs =>
      simp at hr
      exact absurd (by rw [hr.2]; simp) h2

/-! ## Claims on the authenticator -/

/-- C1: for a Content-Length value that parses as an unsigned decimal integer and
a non-empty token in the `v` parameter, `authenticateV1` returns true exactly
when the token equals the keyed hash of `path ++ " " ++ content-length`, the
content length being the header value as sent. -/
theorem authenticateV1_iff (H : Str → Str → Str) (a : authenticator) (r : Request) (n : Nat)
    (hcl : ParseUint (r.Header.Get hdrContentLength) 10 64 = .ok n)
    (htok : r.Form.Get v1Arg ≠ []) :
    (a.authenticateV1 H r).1 = true ↔
      r.Form.Get v1Arg = H a.Secret (r.URL.Path ++ [SP] ++ r.Header.Get hdrContentLength) := by
  obtain ⟨hc, hne⟩ := contentLength_of_ok a r hcl
  rw [hc] at hne
  simp [authenticator.authenticateV1, htok, hne, authenticator.hmac, hc]

/-- C2: for a Content-Length value that parses as an unsigned decimal integer and
a non-empty token in the `v2` parameter, `authenticateV2` returns true exactly
when the token equals the keyed hash, under the same secret, of
`path ++ NUL ++ content-length ++ NUL ++ content-type`, the content type being
the header value or the empty string when the header is absent. -/
theorem authenticateV2_iff (H : Str → Str → Str) (a : authenticator) (r : Request) (n : Nat)
    (hcl : ParseUint (r.Header.Get hdrContentLength) 10 64 = .ok n)
    (htok : r.Form.Get v2Arg ≠ []) :
    ((a.authenticateV2 H r).1 = true ↔
      r.Form.Get v2Arg = H a.Secret (r.URL.Path ++ [NUL] ++ r.Header.Get hdrContentLength
        ++ [NUL] ++ r.Header.Get hdrContentType)) ∧
    (r.Header.lookup hdrContentType = none → r.Header.Get hdrContentType = []) := by
  obtain ⟨hc, hne⟩ := contentLength_of_ok a r hcl
  refine ⟨?_, ?_⟩
  · rw [hc] at hne
    simp [authenticator.authenticateV2, htok, hne, authenticator.hmac, hc]
  · intro h; simp [Values.Get, h]


/-- C3, as amended: for a request whose `v2` parameter has a non-empty value the
outcome of `authenticate` and the payloads hashed are the same for every form
that gives `v2` that value, whatever it holds for `v`; when the request is a PUT
whose form parsed, the outcome and the hashed payloads are those of the
version-2 check alone, so an invalid `v2` token is answered 403 even when the
`v` token is valid. -/
theorem authenticate_v2_dispatch (H : Str → Str → Str) (a : authenticator) (r : Request)
    (form : Values)
    (hv2 : r.Form.Get v2Arg ≠ [])
    (hsame : form.Get v2Arg = r.Form.Get v2Arg) :
    a.authenticate H { r with Form := form } = a.authenticate H r ∧
    (r.Method = MethodPut → r.parseFormErr = false →
      a.authenticate H r =
        (if (a.authenticateV2 H r).1 then Outcome.serveHTTP
          else Outcome.writeHeader StatusForbidden, (a.authenticateV2 H r).2)) ∧
    (r.Method = MethodPut → r.parseFormErr = false → (a.authenticateV2 H r).1 = false →
      (a.authenticateV1 H r).1 = true →
      (a.authenticate H r).1 = Outcome.writeHeader StatusForbidden) := by
  have hisv2 : a.isV2 r = true := by simp [authenticator.isV2, hv2]
  refine ⟨?_, ?_, ?_⟩
  · simp [authenticator.authenticate, authenticator.isV2, authenticator.authenticateV2,
      authenticator.contentLength, hsame, hv2]
  · intro hput hform
    cases hv : (a.authenticateV2 H r).1 <;>
      simp [authenticator.authenticate, hput, hform, hisv2, hv]
  · intro hput hform hbad _
    simp [authenticator.authenticate, hput, hform, hisv2, hbad]

/-- The four things `authenticate` can do. -/
theorem authenticate_outcome (H : Str → Str → Str) (a : authenticator) (r : Request) :
    (a.authenticate H r).1 = Outcome.serveHTTP ∨
    (a.authenticate H r).1 = Outcome.writeHeader StatusMethodNotAllowed ∨
    (a.authenticate H r).1 = Outcome.writeHeader StatusBadRequest ∨
    (a.authenticate H r).1 = Outcome.writeHeader StatusForbidden := by
  unfold authenticator.authenticate
  by_cases hm : r.Method = MethodPut
  · cases hf : r.parseFormErr
    · cases h2 : a.isV2 r
      · cases h1 : a.isV1 r
        · simp [hm]
        · cases hv : (a.authenticateV1 H r).1 <;> simp [hm, hv]
      · cases hv : (a.authenticateV2 H r).1 <;> simp [hm, hv]
    · simp [hm]
  · simp [hm]

/-- C5: `authenticate` calls the wrapped handler exactly when the method is PUT,
the form parsed, and the one scheme that the dispatch selects (version 2 when
`isV2`, otherwise version 1 when `isV1`) verifies the token; a PUT request
whose parsed form carries neither token is answered 403; and on the PUT route
a request that is not passed to the handler leaves the file system as it was. -/
theorem authenticate_serves_iff (H : Str → Str → Str) (s : Server) (fs : FS) (r : Request) :
    ((s.auth.authenticate H r).1 = Outcome.serveHTTP ↔
      r.Method = MethodPut ∧ r.parseFormErr = false ∧
        ((s.auth.isV2 r = true ∧ (s.auth.authenticateV2 H r).1 = true) ∨
         (s.auth.isV2 r = false ∧ s.auth.isV1 r = true ∧
           (s.auth.authenticateV1 H r).1 = true))) ∧
    (r.Method = MethodPut ∧ r.parseFormErr = false ∧
        r.Form.Get v1Arg = [] ∧ r.Form.Get v2Arg = [] →
      (s.auth.authenticate H r).1 = Outcome.writeHeader StatusForbidden) ∧
    ((s.auth.authenticate H r).1 ≠ Outcome.serveHTTP →
      (s.putRoute H fs r).2 = fs ∧ (s.putRoute H fs r).1 ≠ StatusCreated) := by
  refine ⟨?_, ?_, ?_⟩
  · unfold authenticator.authenticate
    by_cases hm : r.Method = MethodPut
    · cases hf : r.parseFormErr
      · cases h2 : s.auth.isV2 r
        · cases h1 : s.auth.isV1 r
          · simp [hm]
          · cases hv : (s.auth.authenticateV1 H r).1 <;> simp [hm, hv]
        · cases hv : (s.auth.authenticateV2 H r).1 <;> simp [hm, hv]
      · simp [hm]
    · simp [hm]
  · rintro ⟨hm, hf, h1, h2⟩
    simp [authenticator.authenticate, hm, hf, authenticator.isV1, authenticator.isV2, h1, h2]
  · intro hns
    unfold Server.putRoute
    cases ho : (s.auth.authenticate H r).1 with
    | serveHTTP => exact absurd ho hns
    | writeHeader code =>
      refine ⟨rfl, ?_⟩
      show code ≠ StatusCreated
      intro hc
      subst hc
      rcases authenticate_outcome H s.auth r with h | h | h | h <;>
        rw [h] at ho <;>
        simp [StatusCreated, StatusForbidden, StatusBadRequest, StatusMethodNotAllowed] at ho

/-- C8, as amended: for a PUT request whose Content-Length header is missing or
is not accepted by `strconv.ParseUint` (base 10, 64 bits), whatever the tokens,
`authenticate` hashes nothing and does not call the wrapped handler, and the
status it writes is 403 Forbidden (400 only when the form did not parse). -/
theorem authenticate_bad_length (H : Str → Str → Str) (a : authenticator) (r : Request)
    (hput : r.Method = MethodPut)
    (hbad : ∀ n, ParseUint (r.Header.Get hdrContentLength) 10 64 ≠ .ok n) :
    (a.authenticate H r).2 = [] ∧
    (a.authenticate H r).1 ≠ Outcome.serveHTTP ∧
    (a.authenticate H r).1 =
      Outcome.writeHeader (if r.parseFormErr then StatusBadRequest else StatusForbidden) ∧
    (r.Header.lookup hdrContentLength = none →
      ∀ n, ParseUint (r.Header.Get hdrContentLength) 10 64 ≠ .ok n) := by
  have hc := contentLength_of_error a r hbad
  have h1 : a.authenticateV1 H r = (false, []) := by
    simp [authenticator.authenticateV1, hc]
  have h2 : a.authenticateV2 H r = (false, []) := by
    simp [authenticator.authenticateV2, hc]
  have key : a.authenticate H r =
      (Outcome.writeHeader (if r.parseFormErr then StatusBadRequest else StatusForbidden), []) := by
    unfold authenticator.authenticate
    cases hf : r.parseFormErr <;> simp [hput, h1, h2]
  refine ⟨by rw [key], by rw [key]; simp, by rw [key], ?_⟩
  intro hnone n
  simp [Values.Get, hnone, ParseUint]


/-- What a successful version-1 check says about the request. -/
theorem authenticateV1_true (H : Str → Str → Str) (a : authenticator) (r : Request)
    (h : (a.authenticateV1 H r).1 = true) :
    r.Form.Get v1Arg = H a.Secret (r.URL.Path ++ [SP] ++ a.contentLength r) := by
  unfold authenticator.authenticateV1 at h
  by_cases hv : r.Form.Get v1Arg = []
  · simp [hv] at h
  · by_cases hc : a.contentLength r = []
    · simp [hv, hc] at h
    · simpa [hv, hc, authenticator.hmac] using h

/-- What a successful version-2 check says about the request. -/
theorem authenticateV2_true (H : Str → Str → Str) (a : authenticator) (r : Request)
    (h : (a.authenticateV2 H r).1 = true) :
    r.Form.Get v2Arg = H a.Secret
      (r.URL.Path ++ [NUL] ++ a.contentLength r ++ [NUL] ++ r.Header.Get hdrContentType) := by
  unfold authenticator.authenticateV2 at h
  by_cases hv : r.Form.Get v2Arg = []
  · simp [hv] at h
  · by_cases hc : a.contentLength r = []
    · simp [hv, hc] at h
    · simpa [hv, hc, authenticator.hmac] using h

/-- A version-1 check fails when the token is not the keyed hash of the payload. -/
theorem authenticateV1_false_of_ne (H : Str → Str → Str) (a : authenticator) (r : Request)
    (h : r.Form.Get v1Arg ≠ H a.Secret (r.URL.Path ++ [SP] ++ a.contentLength r)) :
    (a.authenticateV1 H r).1 = false := by
  cases hv : (a.authenticateV1 H r).1
  · rfl
  · exact absurd (authenticateV1_true H a r hv) h

/-- A version-2 check fails when the token is not the keyed hash of the payload. -/
theorem authenticateV2_false_of_ne (H : Str → Str → Str) (a : authenticator) (r : Request)
    (h : r.Form.Get v2Arg ≠ H a.Secret
      (r.URL.Path ++ [NUL] ++ a.contentLength r ++ [NUL] ++ r.Header.Get hdrContentType)) :
    (a.authenticateV2 H r).1 = false := by
  cases hv : (a.authenticateV2 H r).1
  · rfl
  · exact absurd (authenticateV2_true H a r hv) h

/-- C9: two requests with valid Content-Length values that differ in URL path or
in content length have different version-1 payloads `path ++ " " ++ length`,
and a token that `authenticateV1` accepts for one is rejected for the other when
the keyed hash tells the two payloads apart. -/
theorem v1_payload_binding (H : Str → Str → Str) (a : authenticator) (r1 r2 : Request)
    (n1 n2 : Nat)
    (h1 : ParseUint (r1.Header.Get hdrContentLength) 10 64 = .ok n1)
    (h2 : ParseUint (r2.Header.Get hdrContentLength) 10 64 = .ok n2)
    (hdiff : r1.URL.Path ≠ r2.URL.Path ∨
      r1.Header.Get hdrContentLength ≠ r2.Header.Get hdrContentLength) :
    r1.URL.Path ++ [SP] ++ r1.Header.Get hdrContentLength ≠
      r2.URL.Path ++ [SP] ++ r2.Header.Get hdrContentLength ∧
    (H a.Secret (r1.URL.Path ++ [SP] ++ r1.Header.Get hdrContentLength) ≠
        H a.Secret (r2.URL.Path ++ [SP] ++ r2.Header.Get hdrContentLength) →
      r2.Form.Get v1Arg = r1.Form.Get v1Arg →
      (a.authenticateV1 H r1).1 = true → (a.authenticateV1 H r2).1 = false) := by
  have hne : r1.URL.Path ++ [SP] ++ r1.Header.Get hdrContentLength ≠
      r2.URL.Path ++ [SP] ++ r2.Header.Get hdrContentLength := by
    intro heq
    have heq' : r1.URL.Path ++ SP :: r1.Header.Get hdrContentLength =
        r2.URL.Path ++ SP :: r2.Header.Get hdrContentLength := by simpa using heq
    obtain ⟨hp, hc⟩ := append_sep_inj (SP_not_mem_of_ParseUint h1)
      (SP_not_mem_of_ParseUint h2) heq'
    rcases hdiff with h | h
    · exact h hp
    · exact h hc
  refine ⟨hne, ?_⟩
  intro hH htok hacc
  have e1 := authenticateV1_true H a r1 hacc
  rw [(contentLength_of_ok a r1 h1).1] at e1
  apply authenticateV1_false_of_ne
  rw [(contentLength_of_ok a r2 h2).1, htok, e1]
  exact hH

/-- C10: two requests with valid Content-Length values and Content-Type values
free of NUL that differ in URL path, content length or content type have
different version-2 payloads `path ++ NUL ++ length ++ NUL ++ content-type`, and
a token that `authenticateV2` accepts for one is rejected for the other when the
keyed hash tells the two payloads apart; so it is for a replay that changes only
the content type. -/
theorem v2_payload_binding (H : Str → Str → Str) (a : authenticator) (r1 r2 : Request)
    (n1 n2 : Nat)
    (h1 : ParseUint (r1.Header.Get hdrContentLength) 10 64 = .ok n1)
    (h2 : ParseUint (r2.Header.Get hdrContentLength) 10 64 = .ok n2)
    (ht1 : NUL ∉ r1.Header.Get hdrContentType)
    (ht2 : NUL ∉ r2.Header.Get hdrContentType)
    (hdiff : r1.URL.Path ≠ r2.URL.Path ∨
      r1.Header.Get hdrContentLength ≠ r2.Header.Get hdrContentLength ∨
      r1.Header.Get hdrContentType ≠ r2.Header.Get hdrContentType) :
    r1.URL.Path ++ [NUL] ++ r1.Header.Get hdrContentLength ++ [NUL]
        ++ r1.Header.Get hdrContentType ≠
      r2.URL.Path ++ [NUL] ++ r2.Header.Get hdrContentLength ++ [NUL]
        ++ r2.Header.Get hdrContentType ∧
    (H a.Secret (r1.URL.Path ++ [NUL] ++ r1.Header.Get hdrContentLength ++ [NUL]
          ++ r1.Header.Get hdrContentType) ≠
        H a.Secret (r2.URL.Path ++ [NUL] ++ r2.Header.Get hdrContentLength ++ [NUL]
          ++ r2.Header.Get hdrContentType) →
      r2.Form.Get v2Arg = r1.Form.Get v2Arg →
      (a.authenticateV2 H r1).1 = true → (a.authenticateV2 H r2).1 = false) := by
  have hne : r1.URL.Path ++ [NUL] ++ r1.Header.Get hdrContentLength ++ [NUL]
        ++ r1.Header.Get hdrContentType ≠
      r2.URL.Path ++ [NUL] ++ r2.Header.Get hdrContentLength ++ [NUL]
        ++ r2.Header.Get hdrContentType := by
    intro heq
    have heq' : (r1.URL.Path ++ NUL :: r1.Header.Get hdrContentLength)
          ++ NUL :: r1.Header.Get hdrContentType =
        (r2.URL.Path ++ NUL :: r2.Header.Get hdrContentLength)
          ++ NUL :: r2.Header.Get hdrContentType := by simpa using heq
    obtain ⟨hpc, ht⟩ := append_sep_inj ht1 ht2 heq'
    obtain ⟨hp, hc⟩ := append_sep_inj (NUL_not_mem_of_ParseUint h1)
      (NUL_not_mem_of_ParseUint h2) hpc
    rcases hdiff with h | h | h
    · exact h hp
    · exact h hc
    · exact h ht
  refine ⟨hne, ?_⟩
  intro hH htok hacc
  have e1 := authenticateV2_true H a r1 hacc
  rw [(contentLength_of_ok a r1 h1).1] at e1
  apply authenticateV2_false_of_ne
  rw [(contentLength_of_ok a r2 h2).1, htok, e1]
  exact hH

/-! ## The claims on the authenticator at sample requests -/

/-- C1 at `reqV1`: the token is the keyed hash of `/a/b.png 10`, and the check
accepts it. -/
theorem authenticateV1_iff_witness :
    ParseUint (reqV1.Header.Get hdrContentLength) 10 64 = .ok 10 ∧
    reqV1.Form.Get v1Arg ≠ [] ∧
    ((sampleAuth.authenticateV1 sampleH reqV1).1 = true ↔
      reqV1.Form.Get v1Arg = sampleH sampleAuth.Secret
        (reqV1.URL.Path ++ [SP] ++ reqV1.Header.Get hdrContentLength)) :=
  ⟨rfl, by decide, authenticateV1_iff sampleH sampleAuth reqV1 10 rfl (by decide)⟩

/-- C2 at `reqV2`. -/
theorem authenticateV2_iff_witness :
    ParseUint (reqV2.Header.Get hdrContentLength) 10 64 = .ok 10 ∧
    reqV2.Form.Get v2Arg ≠ [] ∧
    (((sampleAuth.authenticateV2 sampleH reqV2).1 = true ↔
      reqV2.Form.Get v2Arg = sampleH sampleAuth.Secret
        (reqV2.URL.Path ++ [NUL] ++ reqV2.Header.Get hdrContentLength
          ++ [NUL] ++ reqV2.Header.Get hdrContentType)) ∧
    (reqV2.Header.lookup hdrContentType = none → reqV2.Header.Get hdrContentType = [])) :=
  ⟨rfl, by decide, authenticateV2_iff sampleH sampleAuth reqV2 10 rfl (by decide)⟩

/-- C3 as stated fails: `reqEmptyV2` is a PUT request whose `v2` parameter is
present with an empty value, so its version-2 check fails, and whose `v` token
is valid; `authenticate` passes it to the handler instead of answering 403. -/
theorem authenticate_empty_v2_served :
    reqEmptyV2.Method = MethodPut ∧ reqEmptyV2.parseFormErr = false ∧
    reqEmptyV2.Form.lookup v2Arg = some [[]] ∧
    (sampleAuth.authenticateV2 sampleH reqEmptyV2).1 = false ∧
    (sampleAuth.authenticateV1 sampleH reqEmptyV2).1 = true ∧
    (sampleAuth.authenticate sampleH reqEmptyV2).1 = Outcome.serveHTTP ∧
    (sampleAuth.authenticate sampleH reqEmptyV2).1 ≠ Outcome.writeHeader StatusForbidden := by
  decide

/-- C3 as amended, at `reqBadV2` and the form that drops its `v` parameter. -/
theorem authenticate_v2_dispatch_witness :
    reqBadV2.Form.Get v2Arg ≠ [] ∧
    Values.Get [(v2Arg, ["0000".toList])] v2Arg = reqBadV2.Form.Get v2Arg ∧
    reqBadV2.Method = MethodPut ∧ reqBadV2.parseFormErr = false ∧
    (sampleAuth.authenticateV2 sampleH reqBadV2).1 = false ∧
    (sampleAuth.authenticateV1 sampleH reqBadV2).1 = true ∧
    sampleAuth.authenticate sampleH { reqBadV2 with Form := [(v2Arg, ["0000".toList])] } =
      sampleAuth.authenticate sampleH reqBadV2 ∧
    (sampleAuth.authenticate sampleH reqBadV2).1 = Outcome.writeHeader StatusForbidden :=
  have h := authenticate_v2_dispatch sampleH sampleAuth reqBadV2 [(v2Arg, ["0000".toList])]
    (by decide) (by decide)
  ⟨by decide, by decide, by decide, by decide, by decide, by decide, h.1,
    h.2.2 (by decide) (by decide) (by decide) (by decide)⟩

/-- C5 at `reqNoToken`: no token, answered 403, the store untouched. -/
theorem authenticate_serves_iff_witness :
    (sampleServer.auth.authenticate sampleH reqNoToken).1 =
      Outcome.writeHeader StatusForbidden ∧
    (sampleServer.putRoute sampleH [] reqNoToken).2 = [] :=
  have h := authenticate_serves_iff sampleH sampleServer [] reqNoToken
  ⟨h.2.1 (by decide), (h.2.2 (by decide)).1⟩

/-- C8 as stated fails: `reqNoLength` is a PUT request without a Content-Length
header and `reqBadLength` one whose Content-Length is `abc`; `authenticate`
answers both with 403, which is neither 400 nor 405. -/
theorem authenticate_bad_length_status :
    (reqNoLength.Method = MethodPut ∧ reqNoLength.parseFormErr = false ∧
      reqNoLength.Header.lookup hdrContentLength = none ∧
      ParseUint (reqNoLength.Header.Get hdrContentLength) 10 64 = .error .ErrSyntax ∧
      (sampleAuth.authenticate sampleH reqNoLength).1 = Outcome.writeHeader StatusForbidden ∧
      (sampleAuth.authenticate sampleH reqNoLength).1 ≠ Outcome.writeHeader StatusBadRequest ∧
      (sampleAuth.authenticate sampleH reqNoLength).1 ≠
        Outcome.writeHeader StatusMethodNotAllowed) ∧
    (reqBadLength.Method = MethodPut ∧ reqBadLength.parseFormErr = false ∧
      ParseUint (reqBadLength.Header.Get hdrContentLength) 10 64 = .error .ErrSyntax ∧
      (sampleAuth.authenticate sampleH reqBadLength).1 = Outcome.writeHeader StatusForbidden ∧
      (sampleAuth.authenticate sampleH reqBadLength).1 ≠ Outcome.writeHeader StatusBadRequest ∧
      (sampleAuth.authenticate sampleH reqBadLength).1 ≠
        Outcome.writeHeader StatusMethodNotAllowed) :=
  ⟨⟨by decide, by decide, by decide, rfl, by decide, by decide, by decide⟩,
    ⟨by decide, by decide, rfl, by decide, by decide, by decide⟩⟩

/-- C8 as amended, at `reqBadLength`, whose Content-Length is `abc`. -/
theorem authenticate_bad_length_witness :
    reqBadLength.Method = MethodPut ∧
    ParseUint (reqBadLength.Header.Get hdrContentLength) 10 64 = .error .ErrSyntax ∧
    (sampleAuth.authenticate sampleH reqBadLength).2 = [] ∧
    (sampleAuth.authenticate sampleH reqBadLength).1 ≠ Outcome.serveHTTP ∧
    (sampleAuth.authenticate sampleH reqBadLength).1 =
      Outcome.writeHeader (if reqBadLength.parseFormErr then StatusBadRequest
        else StatusForbidden) :=
  have herr : ParseUint (reqBadLength.Header.Get hdrContentLength) 10 64 =
      .error .ErrSyntax := rfl
  have h := authenticate_bad_length sampleH sampleAuth reqBadLength (by decide)
    (by intro n hn; rw [herr] at hn; cases hn)
  ⟨by decide, rfl, h.1, h.2.1, h.2.2.1⟩

/-- C9 at `reqV1` and `reqV1Moved`: the payloads `/a/b.png 10` and `/a/b.png 1 0`
differ, and the token of the first is rejected for the second. -/
theorem v1_payload_binding_witness :
    (reqV1.URL.Path ≠ reqV1Moved.URL.Path ∨
      reqV1.Header.Get hdrContentLength ≠ reqV1Moved.Header.Get hdrContentLength) ∧
    reqV1.URL.Path ++ [SP] ++ reqV1.Header.Get hdrContentLength ≠
      reqV1Moved.URL.Path ++ [SP] ++ reqV1Moved.Header.Get hdrContentLength ∧
    (sampleAuth.authenticateV1 sampleH reqV1).1 = true ∧
    (sampleAuth.authenticateV1 sampleH reqV1Moved).1 = false :=
  have h := v1_payload_binding sampleH sampleAuth reqV1 reqV1Moved 10 0 rfl rfl
    (Or.inl (by decide))
  ⟨Or.inl (by decide), h.1, by decide, h.2 (by decide) (by decide) (by decide)⟩

/-- C10 at `reqV2` and `reqV2Replayed`: the same token with another declared
content type is rejected. -/
theorem v2_payload_binding_witness :
    NUL ∉ reqV2.Header.Get hdrContentType ∧
    NUL ∉ reqV2Replayed.Header.Get hdrContentType ∧
    reqV2.URL.Path = reqV2Replayed.URL.Path ∧
    reqV2.Header.Get hdrContentLength = reqV2Replayed.Header.Get hdrContentLength ∧
    reqV2.Header.Get hdrContentType ≠ reqV2Replayed.Header.Get hdrContentType ∧
    (sampleAuth.authenticateV2 sampleH reqV2).1 = true ∧
    (sampleAuth.authenticateV2 sampleH reqV2Replayed).1 = false :=
  have h := v2_payload_binding sampleH sampleAuth reqV2 reqV2Replayed 10 10 rfl rfl
    (by decide) (by decide) (Or.inr (Or.inr (by decide)))
  ⟨by decide, by decide, by decide, by decide, by decide, by decide,
    h.2 (by decide) (by decide) (by decide)⟩

/-! ## Lemmas on `path.Clean` -/

theorem cleanLoop_skip_slash (rooted : Bool) (xs : Str) (st : CleanState) :
    cleanLoop rooted false ('/' :: xs) st = cleanLoop rooted false xs st := by
  cases xs with
  | nil => simp [cleanLoop]
  | cons d r => simp [cleanLoop]

theorem cleanLoop_copy (rooted : Bool) :
    ∀ (s rest : Str) (st : CleanState), '/' ∉ s → (rest = [] ∨ rest.head? = some '/') →
      cleanLoop rooted true (s ++ rest) st =
        cleanLoop rooted false rest.tail { st with out := s.reverse ++ st.out } := by
  intro s
  induction s with
  | nil =>
    intro rest st _ hrest
    cases rest with
    | nil => simp [cleanLoop]
    | cons x r =>
      have hx : x = '/' := by simpa using hrest
      subst hx
      simp [cleanLoop]
  | cons c s ih =>
    intro rest st hs hrest
    have hc : c ≠ '/' := fun h => hs (by simp [h])
    have hs' : '/' ∉ s := fun h => hs (by simp [h])
    simp only [List.cons_append, cleanLoop, hc, if_false, List.append_eq]
    rw [ih rest _ hs' hrest]
    simp

theorem addSlash_dotdot (rooted : Bool) (st : CleanState) :
    (addSlash rooted st).dotdot = st.dotdot := by
  unfold addSlash; split <;> rfl

theorem cleanLoop_normal (rooted : Bool) (seg rest : Str) (st : CleanState)
    (hn : Normal seg) (hrest : rest = [] ∨ rest.head? = some '/') :
    cleanLoop rooted false (seg ++ rest) st =
      cleanLoop rooted false rest.tail
        { (addSlash rooted st) with out := seg.reverse ++ (addSlash rooted st).out } := by
  obtain ⟨hne, hsl, hdot, hdd⟩ := hn
  cases seg with
  | nil => exact absurd rfl hne
  | cons c s =>
    have hc : c ≠ '/' := fun h => hsl (by simp [h])
    have hs : '/' ∉ s := fun h => hsl (by simp [h])
    cases hsr : s ++ rest with
    | nil =>
      have h1 : s = [] := (List.append_eq_nil.mp hsr).1
      have h2 : rest = [] := (List.append_eq_nil.mp hsr).2
      subst h1; subst h2
      have hcd : c ≠ '.' := fun h => hdot (by simp [h])
      simp [cleanLoop, hc, hcd]
    | cons d r =>
      have step : cleanLoop rooted false (c :: d :: r) st =
          cleanLoop rooted true (d :: r)
            { (addSlash rooted st) with out := c :: (addSlash rooted st).out } := by
        have h2 : ¬ (c = '.' ∧ d = '/') := by
          rintro ⟨h, h'⟩
          cases s with
          | nil => exact hdot (by simp [h])
          | cons e s' =>
            simp at hsr
            exact hs (by simp [hsr.1, h'])
        have h3 : ¬ (c = '.' ∧ d = '.' ∧ (r = [] ∨ r.head? = some '/')) := by
          rintro ⟨h, h', h''⟩
          cases s with
          | nil =>
            simp at hsr
            rcases hrest with hr | hr
            · simp [hr] at hsr
            · rw [hsr] at hr; simp at hr; rw [hr] at h'; exact absurd h' (by decide)
          | cons e s' =>
            simp at hsr
            obtain ⟨he, hr⟩ := hsr
            cases s' with
            | nil =>
              exact hdd (by simp [h, he, h'])
            | cons f s'' =>
              simp at hr
              rcases h'' with h'' | h''
              · rw [← hr] at h''; simp at h''
              · rw [← hr] at h''; simp at h''
                exact hs (by simp [h''])
        simp [cleanLoop, hc, h2, h3]
      simp only [List.cons_append, hsr, step]
      rw [← hsr, cleanLoop_copy rooted s rest _ hs hrest]
      simp

theorem cleanLoop_tail (rooted : Bool) (rest : Str) (st : CleanState)
    (hrest : rest = [] ∨ rest.head? = some '/') :
    cleanLoop rooted false rest.tail st = cleanLoop rooted false rest st := by
  cases rest with
  | nil => rfl
  | cons x r =>
    have hx : x = '/' := by simpa using hrest
    subst hx
    rw [cleanLoop_skip_slash]; rfl

/-- The loop of `path.Clean` handles the first element of what is left to read
as `segStep` says. -/
theorem cleanLoop_segStep (rooted : Bool) (seg rest : Str) (st : CleanState)
    (hseg : '/' ∉ seg) (hrest : rest = [] ∨ rest.head? = some '/') :
    cleanLoop rooted false (seg ++ rest) st =
      cleanLoop rooted false rest (segStep rooted st seg) := by
  by_cases h0 : seg = []
  · subst h0; simp [segStep]
  by_cases h1 : seg = ['.']
  · subst h1
    cases rest with
    | nil => simp [segStep, cleanLoop]
    | cons x r =>
      have hx : x = '/' := by simpa using hrest
      subst hx
      simp [segStep, cleanLoop]
  by_cases h2 : seg = ['.', '.']
  · subst h2
    have hr : rest = [] ∨ rest.head? = some '/' := hrest
    simp [segStep, cleanLoop, hr]
  · rw [cleanLoop_normal rooted seg rest st ⟨h0, hseg, h1, h2⟩ hrest,
      cleanLoop_tail rooted rest _ hrest]
    simp [segStep, h0, h1, h2, pushSeg]

/-- Every string is a first element without a slash followed by nothing or by
a slash and the rest. -/
theorem first_element (xs : Str) :
    ∃ seg rest, xs = seg ++ rest ∧ '/' ∉ seg ∧ (rest = [] ∨ ∃ r, rest = '/' :: r) := by
  induction xs with
  | nil => exact ⟨[], [], rfl, by simp, Or.inl rfl⟩
  | cons c xs ih =>
    by_cases hc : c = '/'
    · exact ⟨[], c :: xs, rfl, by simp, Or.inr ⟨xs, by rw [hc]⟩⟩
    · obtain ⟨seg, rest, hx, hs, hr⟩ := ih
      refine ⟨c :: seg, rest, by rw [hx]; rfl, ?_, hr⟩
      intro hmem
      rcases List.mem_cons.mp hmem with h | h
      · exact hc h.symm
      · exact hs h

/-- A property of the state that every turn on a whole element keeps holds
after the loop of `path.Clean`, whatever is left to read. -/
theorem cleanLoop_invariant (rooted : Bool) (P : CleanState → Prop)
    (hstep : ∀ st seg, '/' ∉ seg → P st → P (segStep rooted st seg)) :
    ∀ (n : Nat) (xs : Str) (st : CleanState), xs.length ≤ n → P st →
      P (cleanLoop rooted false xs st) := by
  intro n
  induction n with
  | zero =>
    intro xs st hlen hP
    have : xs = [] := List.length_eq_zero.mp (Nat.le_zero.mp hlen)
    subst this
    simpa [cleanLoop] using hP
  | succ n ih =>
    intro xs st hlen hP
    obtain ⟨seg, rest, hx, hs, hr⟩ := first_element xs
    subst hx
    rcases hr with hr | ⟨r, hr⟩
    · subst hr
      rw [cleanLoop_segStep rooted seg [] st hs (Or.inl rfl)]
      simpa [cleanLoop] using hstep st seg hs hP
    · subst hr
      rw [cleanLoop_segStep rooted seg ('/' :: r) st hs (Or.inr rfl), cleanLoop_skip_slash]
      apply ih
      · simp at hlen; omega
      · exact hstep st seg hs hP

/-- Reading `xs`, a slash and `ys` is reading `ys` from the state that reading
`xs` alone ends in. -/
theorem cleanLoop_append_slash (rooted : Bool) :
    ∀ (n : Nat) (xs ys : Str) (st : CleanState), xs.length ≤ n →
      cleanLoop rooted false (xs ++ '/' :: ys) st =
        cleanLoop rooted false ys (cleanLoop rooted false xs st) := by
  intro n
  induction n with
  | zero =>
    intro xs ys st hlen
    have : xs = [] := List.length_eq_zero.mp (Nat.le_zero.mp hlen)
    subst this
    simp [cleanLoop_skip_slash, cleanLoop]
  | succ n ih =>
    intro xs ys st hlen
    obtain ⟨seg, rest, hx, hs, hr⟩ := first_element xs
    subst hx
    rcases hr with hr | ⟨r, hr⟩
    · subst hr
      rw [List.append_nil, cleanLoop_segStep rooted seg ('/' :: ys) st hs (Or.inr rfl),
        cleanLoop_skip_slash]
      have := cleanLoop_segStep rooted seg [] st hs (Or.inl rfl)
      rw [List.append_nil] at this
      rw [this]
      simp [cleanLoop]
    · subst hr
      rw [List.append_assoc,
        cleanLoop_segStep rooted seg (('/' :: r) ++ '/' :: ys) st hs (Or.inr rfl),
        cleanLoop_segStep rooted seg ('/' :: r) st hs (Or.inr rfl)]
      rw [List.cons_append, cleanLoop_skip_slash, cleanLoop_skip_slash]
      apply ih
      simp at hlen; omega

theorem slashed_append (a b : List Str) : slashed (a ++ b) = slashed a ++ slashed b := by
  induction a with
  | nil => rfl
  | cons s t ih => simp [slashed, ih]

theorem slashed_eq_nil {segs : List Str} : slashed segs = [] ↔ segs = [] := by
  cases segs <;> simp [slashed]

theorem slashed_length {segs : List Str} (hn : ∀ s ∈ segs, Normal s) (hne : segs ≠ []) :
    2 ≤ (slashed segs).length := by
  cases segs with
  | nil => exact absurd rfl hne
  | cons s t =>
    have hs : s ≠ [] := (hn s (by simp)).1
    have : 1 ≤ s.length := List.length_pos.mpr hs
    simp [slashed]; omega

theorem backtrack_root :
    ∀ (s : Str) (c : Char) (X : Str), '/' ∉ c :: s →
      backtrack 1 c (s ++ '/' :: X) = if X = [] then ['/'] else X := by
  intro s
  induction s with
  | nil =>
    intro c X h
    have hc : c ≠ '/' := fun e => h (by simp [e])
    cases X with
    | nil => simp [backtrack]
    | cons x X => simp [backtrack, hc]
  | cons e s ih =>
    intro c X h
    have hc : c ≠ '/' := fun e' => h (by simp [e'])
    have hes : '/' ∉ e :: s := fun h' => h (List.mem_cons_of_mem _ h')
    have := ih e X hes
    simp only [List.cons_append, backtrack]
    simp [hc, this]

theorem rootBuf_length_one {segs : List Str} (hn : ∀ s ∈ segs, Normal s) :
    (rootBuf segs).length = 1 ↔ segs = [] := by
  unfold rootBuf
  by_cases h : segs = []
  · simp [h]
  · have := slashed_length hn h
    simp [h]; omega

theorem rootInv_pushSeg {st : CleanState} {seg : Str} (hst : RootInv st) (hseg : Normal seg) :
    RootInv (pushSeg true st seg) := by
  obtain ⟨hdd, segs, hn, hout⟩ := hst
  refine ⟨by simp [pushSeg, addSlash_dotdot, hdd], segs ++ [seg], ?_, ?_⟩
  · intro s hs
    rcases List.mem_append.mp hs with h | h
    · exact hn s h
    · simp at h; rw [h]; exact hseg
  · have hlen := rootBuf_length_one hn
    by_cases h : segs = []
    · subst h
      simp [pushSeg, addSlash, hout, rootBuf, slashed]
    · have h1 : (rootBuf segs).length ≠ 1 := fun e => h (hlen.mp e)
      have hrb : rootBuf (segs ++ [seg]) = slashed segs ++ '/' :: seg := by
        simp [rootBuf, slashed_append, slashed]
      have hrb' : rootBuf segs = slashed segs := by simp [rootBuf, h]
      rw [hrb', ] at h1
      rw [hrb]
      simp [pushSeg, addSlash, hout, h1, hrb']

theorem rootInv_dotdotElem {st : CleanState} (hst : RootInv st) :
    RootInv (dotdotElem true st) := by
  obtain ⟨hdd, segs, hn, hout⟩ := hst
  rcases List.eq_nil_or_concat segs with h | ⟨init, last, h⟩
  · subst h
    have : dotdotElem true st = st := by
      simp [dotdotElem, hout, rootBuf, hdd]
    rw [this]
    exact ⟨hdd, [], hn, hout⟩
  · subst h
    have hlast : Normal last := hn last (by simp)
    have hinit : ∀ s ∈ init, Normal s := fun s hs => hn s (by simp [hs])
    obtain ⟨c, s', hrev⟩ : ∃ c s', last.reverse = c :: s' := by
      cases hl : last.reverse with
      | nil => exact absurd (List.reverse_eq_nil_iff.mp hl) hlast.1
      | cons c s' => exact ⟨c, s', rfl⟩
    have hsl : '/' ∉ c :: s' := by
      rw [← hrev]
      intro hm
      exact hlast.2.1 (List.mem_reverse.mp hm)
    have hout' : st.out = c :: (s' ++ '/' :: (slashed init).reverse) := by
      rw [hout]
      simp [rootBuf, slashed_append, slashed, hrev]
    refine ⟨by simp [dotdotElem, hout', hdd], init, hinit, ?_⟩
    have hbt := backtrack_root s' c (slashed init).reverse hsl
    by_cases hi : init = []
    · subst hi
      simp [slashed] at hbt
      simp [dotdotElem, hout', hdd, hbt, rootBuf, slashed]
    · have hne : (slashed init).reverse ≠ [] := by
        simp [slashed_eq_nil, hi]
      simp only [hne, if_false] at hbt
      simp [dotdotElem, hout', hdd, hbt, rootBuf, hi]

theorem rootInv_segStep (st : CleanState) (seg : Str) (hseg : '/' ∉ seg) (hst : RootInv st) :
    RootInv (segStep true st seg) := by
  unfold segStep
  by_cases h01 : seg = [] ∨ seg = ['.']
  · simp only [h01, if_true]; exact hst
  · by_cases h2 : seg = ['.', '.']
    · simp only [h01, h2, if_true, if_false]
      exact rootInv_dotdotElem hst
    · simp only [h01, h2, if_false]
      exact rootInv_pushSeg hst ⟨fun e => h01 (Or.inl e), hseg, fun e => h01 (Or.inr e), h2⟩

/-- The loop of `path.Clean` on a rooted path ends with the root slash and kept
elements in the buffer. -/
theorem cleanLoop_rootInv (q : Str) :
    RootInv (cleanLoop true false q { out := ['/'], dotdot := 1 }) :=
  cleanLoop_invariant true RootInv rootInv_segStep q.length q _ (Nat.le_refl _)
    ⟨rfl, [], by simp, by simp [rootBuf]⟩

/-- On a rooted path `path.Clean` returns `/`, or `/s1/.../sn` for elements that
are not empty, hold no slash and are neither `.` nor `..`. -/
theorem Clean_rooted (q : Str) :
    ∃ segs : List Str, (∀ s ∈ segs, Normal s) ∧ Clean ('/' :: q) = rootBuf segs := by
  obtain ⟨_, segs, hn, hout⟩ := cleanLoop_rootInv q
  refine ⟨segs, hn, ?_⟩
  have hlen : rootBuf segs ≠ [] := by
    unfold rootBuf
    by_cases h : segs = []
    · simp [h]
    · have := slashed_length hn h
      simp only [h, if_false]
      intro e
      rw [e] at this
      simp at this
  simp only [Clean]
  simp [hout, hlen]

theorem slashed_head (segs : List Str) :
    slashed segs = [] ∨ (slashed segs).head? = some '/' := by
  cases segs with
  | nil => exact Or.inl rfl
  | cons s t => exact Or.inr rfl

theorem segStep_normal (rooted : Bool) (st : CleanState) {seg : Str} (h : Normal seg) :
    segStep rooted st seg = pushSeg rooted st seg := by
  obtain ⟨h0, _, h1, h2⟩ := h
  simp [segStep, h0, h1, h2]

/-- Reading `/s1/.../sn`, all elements kept, copies them one after the other. -/
theorem cleanLoop_slashed (rooted : Bool) :
    ∀ (segs : List Str) (st : CleanState), (∀ s ∈ segs, Normal s) →
      cleanLoop rooted false (slashed segs) st = segs.foldl (pushSeg rooted) st := by
  intro segs
  induction segs with
  | nil => intro st _; simp [slashed, cleanLoop]
  | cons s t ih =>
    intro st hn
    have hs : Normal s := hn s (by simp)
    have ht : ∀ x ∈ t, Normal x := fun x hx => hn x (by simp [hx])
    simp only [slashed, List.foldl_cons, List.cons_append]
    rw [cleanLoop_skip_slash, cleanLoop_segStep rooted s (slashed t) st hs.2.1 (slashed_head t),
      segStep_normal rooted st hs, ih _ ht]

theorem foldl_pushSeg_out (rooted : Bool) :
    ∀ (segs : List Str) (st : CleanState), (∀ s ∈ segs, Normal s) →
      ((rooted = true ∧ st.out.length ≠ 1) ∨ (rooted = false ∧ st.out.length ≠ 0)) →
      (segs.foldl (pushSeg rooted) st).out = (slashed segs).reverse ++ st.out := by
  intro segs
  induction segs with
  | nil => intro st _ _; simp [slashed]
  | cons s t ih =>
    intro st hn hc
    have hs : Normal s := hn s (by simp)
    have ht : ∀ x ∈ t, Normal x := fun x hx => hn x (by simp [hx])
    have hpush : (pushSeg rooted st s).out = s.reverse ++ '/' :: st.out := by
      rcases hc with ⟨hr, hl⟩ | ⟨hr, hl⟩ <;> simp [pushSeg, addSlash, hr, hl]
    have hc' : (rooted = true ∧ (pushSeg rooted st s).out.length ≠ 1) ∨
        (rooted = false ∧ (pushSeg rooted st s).out.length ≠ 0) := by
      have hpos : 1 ≤ s.length := List.length_pos.mpr hs.1
      rw [hpush, List.length_append, List.length_cons, List.length_reverse]
      cases rooted
      · right; exact ⟨rfl, by omega⟩
      · left; exact ⟨rfl, by omega⟩
    rw [List.foldl_cons, ih _ ht hc', hpush]
    simp [slashed]

theorem Clean_cons_slash (q : Str) :
    Clean ('/' :: q) =
      if (cleanLoop true false q { out := ['/'], dotdot := 1 }).out.length = 0 then ['.']
      else (cleanLoop true false q { out := ['/'], dotdot := 1 }).out.reverse := by
  simp [Clean]

theorem Clean_cons_other (c : Char) (q : Str) (hc : c ≠ '/') :
    Clean (c :: q) =
      if (cleanLoop false false (c :: q) { out := [], dotdot := 0 }).out.length = 0 then ['.']
      else (cleanLoop false false (c :: q) { out := [], dotdot := 0 }).out.reverse := by
  simp [Clean, hc]

/-- Cleaning a path that is followed by kept elements: the cleaned path, then
the elements, unless the cleaned path is `.` or `/`. -/
theorem Clean_append_slashed (root : Str) (segs : List Str) (hn : ∀ s ∈ segs, Normal s)
    (h1 : Clean root ≠ ['.']) (h2 : Clean root ≠ ['/']) :
    Clean (root ++ '/' :: slashed segs) = Clean root ++ slashed segs := by
  cases root with
  | nil => exact absurd (by simp [Clean]) h1
  | cons c q =>
    by_cases hc : c = '/'
    · subst hc
      obtain ⟨_, segs0, hn0, hout⟩ := cleanLoop_rootInv q
      have hne0 : segs0 ≠ [] := by
        intro e
        apply h2
        rw [Clean_cons_slash, hout, e]
        simp [rootBuf]
      have hlen := slashed_length hn0 hne0
      have hrb : rootBuf segs0 = slashed segs0 := by simp [rootBuf, hne0]
      have hcond : ((true = true ∧
          (cleanLoop true false q { out := ['/'], dotdot := 1 }).out.length ≠ 1) ∨
          (true = false ∧
            (cleanLoop true false q { out := ['/'], dotdot := 1 }).out.length ≠ 0)) := by
        left
        refine ⟨rfl, ?_⟩
        rw [hout, hrb, List.length_reverse]; omega
      have hfin := foldl_pushSeg_out true segs _ hn hcond
      have hr : Clean ('/' :: q) = slashed segs0 := by
        rw [Clean_cons_slash, hout, hrb]
        have : slashed segs0 ≠ [] := fun e => hne0 (slashed_eq_nil.mp e)
        simp [this]
      rw [hr, List.cons_append, Clean_cons_slash,
        cleanLoop_append_slash true q.length q (slashed segs) _ (Nat.le_refl _),
        cleanLoop_slashed true segs _ hn, hfin, hout, hrb]
      have hz : ((slashed segs).reverse ++ (slashed segs0).reverse).length ≠ 0 := by
        simp only [List.length_append, List.length_reverse]; omega
      simp only [hz, if_false]
      simp
    · have hlen0 : (cleanLoop false false (c :: q) { out := [], dotdot := 0 }).out.length ≠ 0 := by
        intro e
        apply h1
        rw [Clean_cons_other c q hc]
        simp [e]
      have hcond : ((false = true ∧
          (cleanLoop false false (c :: q) { out := [], dotdot := 0 }).out.length ≠ 1) ∨
          (false = false ∧
            (cleanLoop false false (c :: q) { out := [], dotdot := 0 }).out.length ≠ 0)) :=
        Or.inr ⟨rfl, hlen0⟩
      have hfin := foldl_pushSeg_out false segs _ hn hcond
      have hr := Clean_cons_other c q hc
      simp only [hlen0, if_false] at hr
      rw [hr, List.cons_append, Clean_cons_other c _ hc, ← List.cons_append,
        cleanLoop_append_slash false (c :: q).length (c :: q) (slashed segs) _ (Nat.le_refl _),
        cleanLoop_slashed false segs _ hn, hfin]
      have hz : ((slashed segs).reverse ++
          (cleanLoop false false (c :: q) { out := [], dotdot := 0 }).out).length ≠ 0 := by
        simp only [List.length_append]; omega
      simp only [hz, if_false]
      simp

/-- Function `path.Clean` leaves `/s1/.../sn` as it is when all elements are kept
ones. -/
theorem Clean_slashed (segs : List Str) (hn : ∀ s ∈ segs, Normal s) (hne : segs ≠ []) :
    Clean (slashed segs) = slashed segs := by
  cases segs with
  | nil => exact absurd rfl hne
  | cons s t =>
    have hs : Normal s := hn s (by simp)
    have ht : ∀ x ∈ t, Normal x := fun x hx => hn x (by simp [hx])
    have hpos : 1 ≤ s.length := List.length_pos.mpr hs.1
    have hpush : (pushSeg true { out := ['/'], dotdot := 1 } s).out = s.reverse ++ ['/'] := by
      simp [pushSeg, addSlash]
    have hcond : ((true = true ∧ (pushSeg true { out := ['/'], dotdot := 1 } s).out.length ≠ 1) ∨
        (true = false ∧ (pushSeg true { out := ['/'], dotdot := 1 } s).out.length ≠ 0)) := by
      left
      refine ⟨rfl, ?_⟩
      rw [hpush]; simp [hs.1]
    have hfin := foldl_pushSeg_out true t _ ht hcond
    have hloop : cleanLoop true false (s ++ slashed t) { out := ['/'], dotdot := 1 } =
        t.foldl (pushSeg true) (pushSeg true { out := ['/'], dotdot := 1 } s) := by
      rw [cleanLoop_segStep true s (slashed t) _ hs.2.1 (slashed_head t),
        segStep_normal true _ hs, cleanLoop_slashed true t _ ht]
    show Clean ('/' :: (s ++ slashed t)) = '/' :: (s ++ slashed t)
    rw [Clean_cons_slash, hloop, hfin, hpush]
    have hz : ((slashed t).reverse ++ (s.reverse ++ ['/'])).length ≠ 0 := by
      simp
    simp only [hz, if_false]
    simp

theorem Join_two (root cp : Str) (hroot : root ≠ []) :
    Join [root, cp] = Clean (root ++ '/' :: cp) := by
  have hl : root.length ≠ 0 := fun e => hroot (List.length_eq_zero.mp e)
  have hpos : 0 < root.length := Nat.pos_of_ne_zero hl
  simp [Join, joinBuf, hroot, hpos]

/-! ## `path.Clean` on paths that are not rooted, and `path.Dir` -/

/-- An element that is not empty and holds no slash. -/
theorem dots_elem {k : Nat} {e : Str} (h : e ∈ dots k) : e = ['.', '.'] := by
  unfold dots at h
  exact List.eq_of_mem_replicate h

theorem unslashed_nil : unslashed [] = [] := rfl

theorem unslashed_cons (e : Str) (t : List Str) : unslashed (e :: t) = e ++ slashed t := rfl

theorem unslashed_concat (l : List Str) (e : Str) (hl : l ≠ []) :
    unslashed (l ++ [e]) = unslashed l ++ '/' :: e := by
  cases l with
  | nil => exact absurd rfl hl
  | cons x t =>
    simp [unslashed, slashed_append, slashed]

theorem unslashed_singleton (e : Str) : unslashed [e] = e := by
  simp [unslashed, slashed]

theorem unslashed_eq_nil {l : List Str} (hne : ∀ e ∈ l, e ≠ []) :
    unslashed l = [] ↔ l = [] := by
  cases l with
  | nil => simp [unslashed, slashed]
  | cons x t =>
    have hx : x ≠ [] := hne x (by simp)
    simp [unslashed_cons, hx]

/-- Reading `s1/.../sn` turns on each element as `segStep` says. -/
theorem cleanLoop_unslashed (rooted : Bool) :
    ∀ (l : List Str) (st : CleanState), (∀ e ∈ l, '/' ∉ e) →
      cleanLoop rooted false (unslashed l) st = l.foldl (segStep rooted) st := by
  intro l
  induction l with
  | nil => intro st _; simp [unslashed, slashed, cleanLoop]
  | cons e t ih =>
    intro st hl
    have he : '/' ∉ e := hl e (by simp)
    have ht : ∀ x ∈ t, '/' ∉ x := fun x hx => hl x (by simp [hx])
    rw [unslashed_cons, cleanLoop_segStep rooted e (slashed t) st he (slashed_head t),
      ← cleanLoop_tail rooted (slashed t) _ (slashed_head t), List.foldl_cons]
    exact ih _ ht

/-- The backtracking of the `..` case removes the last element and the slash
before it, when what is left is not shorter than `dotdot`. -/
theorem backtrack_slash :
    ∀ (s : Str) (c : Char) (X : Str) (d : Nat), '/' ∉ c :: s → d ≤ X.length →
      backtrack d c (s ++ '/' :: X) = X := by
  intro s
  induction s with
  | nil =>
    intro c X d h hd
    have hc : c ≠ '/' := fun e => h (by simp [e])
    cases X with
    | nil =>
      have hd0 : d = 0 := by simpa using hd
      simp [backtrack, hc, hd0]
    | cons x X =>
      have : d < X.length + 1 + 1 := by simp at hd; omega
      simp [backtrack, hc, this]
  | cons e s ih =>
    intro c X d h hd
    have hc : c ≠ '/' := fun e' => h (by simp [e'])
    have hes : '/' ∉ e :: s := fun h' => h (List.mem_cons_of_mem _ h')
    have hcond : (e :: (s ++ '/' :: X)).length > d ∧ c ≠ '/' :=
      ⟨by simp; omega, hc⟩
    show backtrack d c (e :: (s ++ '/' :: X)) = X
    rw [backtrack, if_pos hcond]
    exact ih e X d hes hd

/-- The backtracking of the `..` case empties a buffer that holds one element
only, when `dotdot` is 0. -/
theorem backtrack_all : ∀ (s : Str) (c : Char), '/' ∉ c :: s → backtrack 0 c s = [] := by
  intro s
  induction s with
  | nil => intro c _; simp [backtrack]
  | cons e s ih =>
    intro c h
    have hc : c ≠ '/' := fun e' => h (by simp [e'])
    have hes : '/' ∉ e :: s := fun h' => h (List.mem_cons_of_mem _ h')
    have hcond : (e :: s).length > 0 ∧ c ≠ '/' := ⟨by simp, hc⟩
    rw [backtrack, if_pos hcond]
    exact ih e hes

theorem unslashed_append (l m : List Str) (hl : l ≠ []) :
    unslashed (l ++ m) = unslashed l ++ slashed m := by
  cases l with
  | nil => exact absurd rfl hl
  | cons x t => simp [unslashed, slashed, slashed_append]

theorem dots_succ (k : Nat) : dots (k + 1) = dots k ++ [['.', '.']] := by
  unfold dots
  exact List.replicate_succ' k _

theorem dots_eq_nil {k : Nat} : dots k = [] ↔ k = 0 := by
  cases k <;> simp [dots, List.replicate]

theorem rel_elem_ne_nil {k : Nat} {segs : List Str} (hn : ∀ s ∈ segs, Normal s) :
    ∀ e ∈ dots k ++ segs, e ≠ [] := by
  intro e he
  rcases List.mem_append.mp he with h | h
  · rw [dots_elem h]; simp
  · exact (hn e h).1

theorem rel_elem_no_slash {k : Nat} {segs : List Str} (hn : ∀ s ∈ segs, Normal s) :
    ∀ e ∈ dots k ++ segs, '/' ∉ e := by
  intro e he
  rcases List.mem_append.mp he with h | h
  · rw [dots_elem h]; decide
  · exact (hn e h).2.1

theorem unslashed_dots_le (k : Nat) (segs : List Str) :
    (unslashed (dots k)).length ≤ (unslashed (dots k ++ segs)).length := by
  by_cases hk : dots k = []
  · rw [hk]; simp [unslashed_nil]
  · rw [unslashed_append _ _ hk]; simp

/-- The default case on a buffer that holds `s1/.../sn`. -/
theorem pushSeg_unslashed (st : CleanState) (l : List Str) (seg : Str)
    (hl : ∀ e ∈ l, e ≠ []) (hout : st.out = (unslashed l).reverse) :
    (pushSeg false st seg).out = (unslashed (l ++ [seg])).reverse ∧
    (pushSeg false st seg).dotdot = st.dotdot := by
  refine ⟨?_, by simp [pushSeg, addSlash_dotdot]⟩
  by_cases h : l = []
  · subst h
    simp [pushSeg, addSlash, hout, unslashed_nil, unslashed_singleton]
  · have hne : unslashed l ≠ [] := fun e => h ((unslashed_eq_nil hl).mp e)
    rw [unslashed_concat l seg h]
    simp [pushSeg, addSlash, hout, hne]

/-- The `..` case on a buffer that holds only elements `..`: one more. -/
theorem dotdotElem_dots (k : Nat) :
    dotdotElem false
        { out := (unslashed (dots k)).reverse, dotdot := (unslashed (dots k)).length } =
      { out := (unslashed (dots (k + 1))).reverse,
        dotdot := (unslashed (dots (k + 1))).length } := by
  by_cases hk : dots k = []
  · rw [dots_succ, hk]
    simp [dotdotElem, unslashed_nil, unslashed_singleton]
  · have hne : unslashed (dots k) ≠ [] := by
      intro e
      exact hk ((unslashed_eq_nil (fun e he => by rw [dots_elem he]; simp)).mp e)
    have hpos : 0 < (unslashed (dots k)).length := List.length_pos.mpr hne
    rw [dots_succ, unslashed_concat _ _ hk]
    simp [dotdotElem, hpos]

theorem relInv_pushSeg {st : CleanState} {seg : Str} (hst : RelInv st) (hseg : Normal seg) :
    RelInv (pushSeg false st seg) := by
  obtain ⟨k, segs, hn, hout, hdd⟩ := hst
  have hp := pushSeg_unslashed st (dots k ++ segs) seg (rel_elem_ne_nil hn) hout
  refine ⟨k, segs ++ [seg], ?_, ?_, ?_⟩
  · intro s hs
    rcases List.mem_append.mp hs with h | h
    · exact hn s h
    · simp at h; rw [h]; exact hseg
  · rw [hp.1, List.append_assoc]
  · rw [hp.2, hdd]

theorem relInv_dotdotElem {st : CleanState} (hst : RelInv st) :
    RelInv (dotdotElem false st) := by
  obtain ⟨k, segs, hn, hout, hdd⟩ := hst
  rcases List.eq_nil_or_concat segs with h | ⟨init, last, h⟩
  · subst h
    have hst : st = CleanState.mk (unslashed (dots k)).reverse (unslashed (dots k)).length := by
      cases st
      simp at hout hdd
      simp [hout, hdd]
    rw [hst, dotdotElem_dots]
    exact ⟨k + 1, [], by simp, by simp, rfl⟩
  · subst h
    simp only [List.concat_eq_append] at hout hn
    have hlast : Normal last := hn last (by simp)
    have hinit : ∀ s ∈ init, Normal s := fun s hs => hn s (by simp [hs])
    obtain ⟨c, s', hrev⟩ : ∃ c s', last.reverse = c :: s' := by
      cases hl : last.reverse with
      | nil => exact absurd (List.reverse_eq_nil_iff.mp hl) hlast.1
      | cons c s' => exact ⟨c, s', rfl⟩
    have hsl : '/' ∉ c :: s' := by
      rw [← hrev]
      intro hm
      exact hlast.2.1 (List.mem_reverse.mp hm)
    refine ⟨k, init, hinit, ?_, ?_⟩
    · by_cases h0 : dots k ++ init = []
      · have hk : dots k = [] := (List.append_eq_nil.mp h0).1
        have hi : init = [] := (List.append_eq_nil.mp h0).2
        have hout' : st.out = c :: s' := by
          rw [hout, hk, hi]
          simp [unslashed_singleton, hrev]
        have hd0 : st.dotdot = 0 := by rw [hdd, hk]; rfl
        rw [h0]
        simp [dotdotElem, hout', hd0, backtrack_all s' c hsl, unslashed_nil]
      · have hout' : st.out = c :: (s' ++ '/' :: (unslashed (dots k ++ init)).reverse) := by
          rw [hout, ← List.append_assoc, unslashed_concat _ _ h0]
          simp [hrev]
        have hle : st.dotdot ≤ ((unslashed (dots k ++ init)).reverse).length := by
          rw [hdd, List.length_reverse]
          exact unslashed_dots_le k init
        have hgt : st.out.length > st.dotdot := by
          rw [hout']
          simp only [List.length_cons, List.length_append]
          omega
        have hbt := backtrack_slash s' c _ st.dotdot hsl hle
        simp only [dotdotElem, hgt, if_true]
        rw [hout']
        simp [hbt]
    · have : (dotdotElem false st).dotdot = st.dotdot := by
        have hgt : st.out.length > st.dotdot := by
          rw [hout, hdd, List.length_reverse, ← List.append_assoc]
          by_cases h0 : dots k ++ init = []
          · have hk : dots k = [] := (List.append_eq_nil.mp h0).1
            rw [h0, hk]
            have := List.length_pos.mpr hlast.1
            simp [unslashed_singleton, unslashed_nil]
            exact this
          · rw [unslashed_concat _ _ h0]
            have := unslashed_dots_le k init
            simp only [List.length_append, List.length_cons]
            omega
        simp only [dotdotElem, hgt, if_true]
        cases st.out <;> rfl
      rw [this, hdd]

theorem relInv_segStep (st : CleanState) (seg : Str) (hseg : '/' ∉ seg) (hst : RelInv st) :
    RelInv (segStep false st seg) := by
  unfold segStep
  by_cases h01 : seg = [] ∨ seg = ['.']
  · simp only [h01, if_true]; exact hst
  · by_cases h2 : seg = ['.', '.']
    · simp only [h01, h2, if_true, if_false]
      exact relInv_dotdotElem hst
    · simp only [h01, h2, if_false]
      exact relInv_pushSeg hst ⟨fun e => h01 (Or.inl e), hseg, fun e => h01 (Or.inr e), h2⟩

/-- The loop of `path.Clean` on a path that is not rooted ends with elements
`..` and then kept elements in the buffer. -/
theorem cleanLoop_relInv (q : Str) :
    RelInv (cleanLoop false false q { out := [], dotdot := 0 }) :=
  cleanLoop_invariant false RelInv relInv_segStep q.length q _ (Nat.le_refl _)
    ⟨0, [], by simp, by simp [dots, unslashed_nil], by simp [dots, unslashed_nil]⟩

theorem foldl_segStep_dots (k : Nat) :
    (dots k).foldl (segStep false) { out := [], dotdot := 0 } =
      CleanState.mk (unslashed (dots k)).reverse (unslashed (dots k)).length := by
  induction k with
  | zero => simp [dots, unslashed_nil]
  | succ k ih =>
    rw [dots_succ, List.foldl_append, ih]
    have : segStep false (CleanState.mk (unslashed (dots k)).reverse
        (unslashed (dots k)).length) ['.', '.'] =
        dotdotElem false (CleanState.mk (unslashed (dots k)).reverse
          (unslashed (dots k)).length) := by
      simp [segStep]
    simp only [List.foldl_cons, List.foldl_nil, this]
    rw [← dots_succ]
    exact dotdotElem_dots k

theorem foldl_segStep_normal :
    ∀ (segs : List Str) (st : CleanState) (l : List Str), (∀ s ∈ segs, Normal s) →
      (∀ e ∈ l, e ≠ []) → st.out = (unslashed l).reverse →
      (segs.foldl (segStep false) st).out = (unslashed (l ++ segs)).reverse := by
  intro segs
  induction segs with
  | nil => intro st l _ _ h; simpa using h
  | cons s t ih =>
    intro st l hn hl hout
    have hs : Normal s := hn s (by simp)
    have ht : ∀ x ∈ t, Normal x := fun x hx => hn x (by simp [hx])
    rw [List.foldl_cons, segStep_normal false st hs]
    have hp := pushSeg_unslashed st l s hl hout
    have hl' : ∀ e ∈ l ++ [s], e ≠ [] := by
      intro e he
      rcases List.mem_append.mp he with h | h
      · exact hl e h
      · simp at h; rw [h]; exact hs.1
    have := ih (pushSeg false st s) (l ++ [s]) ht hl' hp.1
    rw [this, List.append_assoc]
    rfl

/-- Function `path.Clean` leaves `../../s1/.../sn` as it is. -/
theorem Clean_unslashed (k : Nat) (segs : List Str) (hn : ∀ s ∈ segs, Normal s)
    (hne : dots k ++ segs ≠ []) :
    Clean (unslashed (dots k ++ segs)) = unslashed (dots k ++ segs) := by
  have hel := rel_elem_ne_nil (k := k) hn
  have hsl := rel_elem_no_slash (k := k) hn
  have hun : unslashed (dots k ++ segs) ≠ [] := fun e => hne ((unslashed_eq_nil hel).mp e)
  have hloop : (cleanLoop false false (unslashed (dots k ++ segs))
      { out := [], dotdot := 0 }).out = (unslashed (dots k ++ segs)).reverse := by
    rw [cleanLoop_unslashed false _ _ hsl, List.foldl_append, foldl_segStep_dots]
    exact foldl_segStep_normal segs _ (dots k) hn
      (fun e he => by rw [dots_elem he]; simp) rfl
  cases hl : dots k ++ segs with
  | nil => exact absurd hl hne
  | cons e t =>
    have he : e ≠ [] := hel e (by rw [hl]; simp)
    have hes : '/' ∉ e := hsl e (by rw [hl]; simp)
    cases he' : e with
    | nil => exact absurd he' he
    | cons c e2 =>
      have hc : c ≠ '/' := fun h => hes (by rw [he', h]; simp)
      rw [hl, he'] at hloop hun
      rw [unslashed_cons] at hloop hun ⊢
      rw [List.cons_append] at hloop hun ⊢
      rw [Clean_cons_other c _ hc, hloop]
      simp

/-- Function `path.Clean` is idempotent. -/
theorem Clean_idem (x : Str) : Clean (Clean x) = Clean x := by
  cases x with
  | nil => decide
  | cons c q =>
    by_cases hc : c = '/'
    · subst hc
      obtain ⟨segs, hn, hcl⟩ := Clean_rooted q
      rw [hcl]
      by_cases hs : segs = []
      · rw [hs]; decide
      · have : rootBuf segs = slashed segs := by simp [rootBuf, hs]
        rw [this]
        exact Clean_slashed segs hn hs
    · obtain ⟨k, segs, hn, hout, _⟩ := cleanLoop_relInv (c :: q)
      rw [Clean_cons_other c q hc, hout]
      by_cases h0 : dots k ++ segs = []
      · rw [h0]; decide
      · have hun : unslashed (dots k ++ segs) ≠ [] :=
          fun e => h0 ((unslashed_eq_nil (rel_elem_ne_nil hn)).mp e)
        simp only [List.length_reverse, List.length_eq_zero, hun, if_false, List.reverse_reverse]
        exact Clean_unslashed k segs hn h0

theorem Clean_trailing_slash (y : Str) (hy : y ≠ []) : Clean (y ++ ['/']) = Clean y := by
  cases y with
  | nil => exact absurd rfl hy
  | cons c q =>
    by_cases hc : c = '/'
    · subst hc
      rw [List.cons_append, Clean_cons_slash, Clean_cons_slash,
        cleanLoop_append_slash true q.length q [] _ (Nat.le_refl _)]
      simp [cleanLoop]
    · rw [List.cons_append, Clean_cons_other c _ hc, Clean_cons_other c _ hc,
        ← List.cons_append,
        cleanLoop_append_slash false (c :: q).length (c :: q) [] _ (Nat.le_refl _)]
      simp [cleanLoop]

theorem Clean_double_slash (x ys : Str) (hx : x ≠ []) :
    Clean (x ++ '/' :: '/' :: ys) = Clean (x ++ '/' :: ys) := by
  cases x with
  | nil => exact absurd rfl hx
  | cons c q =>
    by_cases hc : c = '/'
    · subst hc
      rw [List.cons_append, List.cons_append, Clean_cons_slash, Clean_cons_slash,
        cleanLoop_append_slash true q.length q _ _ (Nat.le_refl _),
        cleanLoop_append_slash true q.length q _ _ (Nat.le_refl _), cleanLoop_skip_slash]
    · rw [List.cons_append, List.cons_append, Clean_cons_other c _ hc,
        Clean_cons_other c _ hc, ← List.cons_append, ← List.cons_append,
        cleanLoop_append_slash false (c :: q).length (c :: q) _ _ (Nat.le_refl _),
        cleanLoop_append_slash false (c :: q).length (c :: q) _ _ (Nat.le_refl _),
        cleanLoop_skip_slash]

/-- A cleaned root followed by kept elements is clean. -/
theorem Clean_root_slashed (root : Str) (segs : List Str) (hn : ∀ s ∈ segs, Normal s)
    (h1 : Clean root ≠ ['.']) (h2 : Clean root ≠ ['/']) :
    Clean (Clean root ++ slashed segs) = Clean root ++ slashed segs := by
  have hne : Clean root ≠ [] := by
    intro e
    have := Clean_idem root
    rw [e] at this
    exact absurd this (by decide)
  cases segs with
  | nil => simp [slashed, Clean_idem]
  | cons s t =>
    have := Clean_append_slashed (Clean root) (s :: t) hn
      (by rw [Clean_idem]; exact h1) (by rw [Clean_idem]; exact h2)
    rw [Clean_idem] at this
    have hd := Clean_double_slash (Clean root) (s ++ slashed t) hne
    have e1 : Clean root ++ slashed (s :: t) = Clean root ++ '/' :: (s ++ slashed t) := by
      simp [slashed]
    have e2 : Clean root ++ '/' :: slashed (s :: t) =
        Clean root ++ '/' :: '/' :: (s ++ slashed t) := by
      simp [slashed]
    rw [e2] at this
    rw [e1, ← hd, this, ← e1]

theorem dropWhile_to_slash :
    ∀ (l rest : Str), '/' ∉ l →
      (l ++ '/' :: rest).dropWhile (fun c => c != '/') = '/' :: rest := by
  intro l
  induction l with
  | nil => intro rest _; simp [List.dropWhile]
  | cons c l ih =>
    intro rest h
    have hc : c ≠ '/' := fun e => h (by simp [e])
    have hl : '/' ∉ l := fun h' => h (List.mem_cons_of_mem _ h')
    have hb : (c != '/') = true := by simp [hc]
    simp [List.dropWhile, hb, ih rest hl]

theorem SplitDir_last (y last : Str) (hl : '/' ∉ last) :
    SplitDir (y ++ '/' :: last) = y ++ ['/'] := by
  unfold SplitDir
  have : (y ++ '/' :: last).reverse = last.reverse ++ '/' :: y.reverse := by simp
  rw [this, dropWhile_to_slash _ _ (fun h => hl (List.mem_reverse.mp h))]
  simp

theorem mkdirAllParent_last (y last : Str) (hne : last ≠ []) (hl : '/' ∉ last) :
    mkdirAllParent (y ++ '/' :: last) = y := by
  unfold mkdirAllParent
  have hrev : (y ++ '/' :: last).reverse = last.reverse ++ '/' :: y.reverse := by simp
  have hl' : '/' ∉ last.reverse := fun h => hl (List.mem_reverse.mp h)
  have h1 : (last.reverse ++ '/' :: y.reverse).dropWhile (fun c => c == '/') =
      last.reverse ++ '/' :: y.reverse := by
    cases hr : last.reverse with
    | nil => exact absurd (List.reverse_eq_nil_iff.mp hr) hne
    | cons c t =>
      have hc : c ≠ '/' := fun e => hl' (by rw [hr, e]; simp)
      have hb : (c == '/') = false := by simp [hc]
      simp [List.dropWhile, hb]
  rw [hrev, h1, dropWhile_to_slash _ _ hl']
  simp

/-- The directory of `root/s1/.../sn` is `root/s1/.../s(n-1)`. -/
theorem Dir_root_slashed (root : Str) (init : List Str) (last : Str)
    (hn : ∀ s ∈ init, Normal s) (hlast : Normal last)
    (h1 : Clean root ≠ ['.']) (h2 : Clean root ≠ ['/']) :
    Dir (Clean root ++ slashed (init ++ [last])) = Clean root ++ slashed init := by
  have hne : Clean root ++ slashed init ≠ [] := by
    intro e
    have : Clean root = [] := (List.append_eq_nil.mp e).1
    have hi := Clean_idem root
    rw [this] at hi
    exact absurd hi (by decide)
  have hF : Clean root ++ slashed (init ++ [last]) =
      (Clean root ++ slashed init) ++ '/' :: last := by
    simp [slashed_append, slashed]
  unfold Dir
  rw [hF, SplitDir_last _ _ hlast.2.1, Clean_trailing_slash _ hne,
    Clean_root_slashed root init hn h1 h2]

/-! ## Lemmas on the file system -/

theorem Grows.refl (fs : FS) : Grows fs fs := fun _ => ⟨id, id⟩

theorem Grows.trans {a b c : FS} (h1 : Grows a b) (h2 : Grows b c) : Grows a c :=
  fun k => ⟨fun h => (h2 k).1 ((h1 k).1 h), fun h => (h2 k).2 ((h1 k).2 h)⟩

theorem Grows.some {a b : FS} (h : Grows a b) {k : Str} (hk : ∃ n, a.lookup k = some n) :
    ∃ n, b.lookup k = some n := by
  obtain ⟨n, hn⟩ := hk
  cases n with
  | dir => exact ⟨_, (h k).1 hn⟩
  | file c =>
    obtain ⟨c', hc⟩ := (h k).2 ⟨c, hn⟩
    exact ⟨_, hc⟩

theorem Taken.grows {F : Str} {a b : FS} (ht : Taken F a) (h : Grows a b) : Taken F b :=
  ⟨(h _).1 ht.1, h.some ht.2⟩

theorem lookup_cons_ne {k name : Str} {node : Node} {fs : FS} (h : k ≠ name) :
    List.lookup k ((name, node) :: fs) = List.lookup k fs := by
  have hb : (k == name) = false := beq_eq_false_iff_ne.mpr h
  simp [List.lookup, hb]

theorem lookup_cons_self {name : Str} {node : Node} {fs : FS} :
    List.lookup name ((name, node) :: fs) = some node := by
  simp [List.lookup]

/-- Binding a name that was free keeps every other binding. -/
theorem grows_cons {fs : FS} {name : Str} (node : Node) (h : fs.lookup name = none) :
    Grows fs ((name, node) :: fs) := by
  intro k
  by_cases hk : k = name
  · subst hk
    simp [h]
  · rw [lookup_cons_ne hk]
    exact ⟨id, id⟩

theorem Mkdir_grows (fs : FS) (name : Str) : Grows fs (Mkdir fs name).2 := by
  unfold Mkdir
  cases h : fs.lookup name with
  | none => exact grows_cons _ h
  | some n => exact Grows.refl fs

theorem Mkdir_ok {fs fs2 : FS} {name : Str} (h : Mkdir fs name = (none, fs2)) :
    fs2.lookup name = some Node.dir := by
  unfold Mkdir at h
  cases hl : fs.lookup name with
  | none =>
    simp [hl] at h
    rw [← h]
    exact lookup_cons_self
  | some n => simp [hl] at h

theorem MkdirAllAux_grows :
    ∀ (fuel : Nat) (fs : FS) (path : Str), Grows fs (MkdirAllAux fuel fs path).2 := by
  intro fuel
  induction fuel with
  | zero =>
    intro fs path
    unfold MkdirAllAux
    cases hs : Stat fs path with
    | ok n => cases n <;> exact Grows.refl fs
    | error e =>
      simp only []
      have hm := Mkdir_grows fs path
      cases hmk : Mkdir fs path with
      | mk e1 fs2 =>
        rw [hmk] at hm
        cases e1 with
        | none => exact hm
        | some e2 =>
          simp only []
          split <;> exact hm
  | succ fuel ih =>
    intro fs path
    unfold MkdirAllAux
    cases hs : Stat fs path with
    | ok n => cases n <;> exact Grows.refl fs
    | error e =>
      simp only []
      have key : ∀ fs1 : FS, Grows fs fs1 →
          Grows fs (match Mkdir fs1 path with
            | (none, fs2) => ((none : Option Error), fs2)
            | (some e, fs2) =>
              match Stat fs2 path with
              | .ok .dir => (none, fs2)
              | _ => (some e, fs2)).2 := by
        intro fs1 h1
        have hm := Mkdir_grows fs1 path
        cases hmk : Mkdir fs1 path with
        | mk e1 fs2 =>
          rw [hmk] at hm
          cases e1 with
          | none => exact h1.trans hm
          | some e2 =>
            simp only []
            split <;> exact h1.trans hm
      by_cases hp : (mkdirAllParent path).length > 0
      · simp only [hp, if_true]
        have hrec := ih fs (mkdirAllParent path)
        cases hr : MkdirAllAux fuel fs (mkdirAllParent path) with
        | mk e1 fs1 =>
          rw [hr] at hrec
          cases e1 with
          | some e2 => exact hrec
          | none => exact key fs1 hrec
      · simp only [hp, if_false]
        exact key fs (Grows.refl fs)

theorem Stat_ok {fs : FS} {name : Str} {n : Node} :
    Stat fs name = .ok n ↔ fs.lookup name = some n := by
  unfold Stat
  cases h : fs.lookup name <;> simp

theorem Stat_error {fs : FS} {name : Str} {e : Error} (h : Stat fs name = .error e) :
    fs.lookup name = none ∧ e = Error.os Errno.ErrNotExist := by
  unfold Stat at h
  cases hl : fs.lookup name with
  | none => simp [hl] at h; exact ⟨rfl, h.symm⟩
  | some n => simp [hl] at h

/-- A successful `os.MkdirAll` leaves the path a directory. -/
theorem MkdirAllAux_ok :
    ∀ (fuel : Nat) (fs fs2 : FS) (path : Str), MkdirAllAux fuel fs path = (none, fs2) →
      fs2.lookup path = some Node.dir := by
  have key : ∀ (fs1 fs2 : FS) (path : Str),
      (match Mkdir fs1 path with
        | (none, fs2) => ((none : Option Error), fs2)
        | (some e, fs2) =>
          match Stat fs2 path with
          | .ok .dir => (none, fs2)
          | _ => (some e, fs2)) = (none, fs2) → fs2.lookup path = some Node.dir := by
    intro fs1 fs2 path h
    cases hmk : Mkdir fs1 path with
    | mk e1 fs3 =>
      rw [hmk] at h
      cases e1 with
      | none =>
        simp only [Prod.mk.injEq, true_and] at h
        rw [← h]
        exact Mkdir_ok hmk
      | some e2 =>
        simp only [] at h
        cases hst : Stat fs3 path with
        | error e3 => rw [hst] at h; simp at h
        | ok n =>
          rw [hst] at h
          cases n with
          | file c => simp at h
          | dir =>
            simp only [Prod.mk.injEq, true_and] at h
            rw [← h]
            exact Stat_ok.mp hst
  intro fuel
  induction fuel with
  | zero =>
    intro fs fs2 path h
    unfold MkdirAllAux at h
    cases hs : Stat fs path with
    | ok n =>
      rw [hs] at h
      cases n with
      | dir =>
        simp only [Prod.mk.injEq, true_and] at h
        rw [← h]; exact Stat_ok.mp hs
      | file c => simp at h
    | error e =>
      rw [hs] at h
      exact key fs fs2 path h
  | succ fuel ih =>
    intro fs fs2 path h
    unfold MkdirAllAux at h
    cases hs : Stat fs path with
    | ok n =>
      rw [hs] at h
      cases n with
      | dir =>
        simp only [Prod.mk.injEq, true_and] at h
        rw [← h]; exact Stat_ok.mp hs
      | file c => simp at h
    | error e =>
      rw [hs] at h
      simp only [] at h
      by_cases hp : (mkdirAllParent path).length > 0
      · simp only [hp, if_true] at h
        cases hr : MkdirAllAux fuel fs (mkdirAllParent path) with
        | mk e1 fs1 =>
          rw [hr] at h
          cases e1 with
          | some e2 => simp at h
          | none => exact key fs1 fs2 path h
      · simp only [hp, if_false] at h
        exact key fs fs2 path h

/-- On a directory `os.MkdirAll` returns at once and changes nothing. -/
theorem MkdirAllAux_dir (fuel : Nat) (fs : FS) (path : Str)
    (h : fs.lookup path = some Node.dir) : MkdirAllAux fuel fs path = (none, fs) := by
  have hs : Stat fs path = .ok Node.dir := Stat_ok.mpr h
  cases fuel <;> (unfold MkdirAllAux; rw [hs])

theorem mkdirAllParent_length (path : Str) :
    (mkdirAllParent path).length ≤ path.length - 1 := by
  unfold mkdirAllParent
  rw [List.length_reverse, List.length_tail]
  have h1 := (List.dropWhile_sublist (l := List.dropWhile (fun c => c == '/') path.reverse)
    (fun c => c != '/')).length_le
  have h2 := (List.dropWhile_sublist (l := path.reverse) (fun c => c == '/')).length_le
  rw [List.length_reverse] at h2
  omega

/-- The length of the path is fuel enough for `os.MkdirAll`: more fuel gives the
same result. -/
theorem MkdirAllAux_fuel :
    ∀ (n m : Nat) (fs : FS) (path : Str), path.length ≤ n → path.length ≤ m →
      MkdirAllAux n fs path = MkdirAllAux m fs path := by
  intro n
  induction n with
  | zero =>
    intro m fs path hn _
    have hp : path = [] := List.length_eq_zero.mp (Nat.le_zero.mp hn)
    subst hp
    cases m with
    | zero => rfl
    | succ m =>
      unfold MkdirAllAux
      simp [mkdirAllParent]
  | succ n ih =>
    intro m fs path hn hm
    cases m with
    | zero =>
      have hp : path = [] := List.length_eq_zero.mp (Nat.le_zero.mp hm)
      subst hp
      unfold MkdirAllAux
      simp [mkdirAllParent]
    | succ m =>
      have hl := mkdirAllParent_length path
      unfold MkdirAllAux
      cases hs : Stat fs path with
      | ok node => cases node <;> rfl
      | error e =>
        simp only []
        by_cases hp : (mkdirAllParent path).length > 0
        · simp only [hp, if_true]
          rw [ih m fs (mkdirAllParent path) (by omega) (by omega)]
        · simp only [hp, if_false]

/-- Function `os.MkdirAll` does not run out of fuel. -/
theorem MkdirAll_fuel (fs : FS) (path : Str) (n : Nat) (h : path.length ≤ n) :
    MkdirAllAux n fs path = MkdirAll fs path :=
  MkdirAllAux_fuel n path.length fs path h (Nat.le_refl _)

theorem Create_free {fs : FS} {name : Str} (h : fs.lookup name = none) :
    Create fs name = (.ok name, (name, Node.file []) :: fs) := by
  simp [Create, h]

/-- What `Server.createFile` does, case by case. -/
theorem createFile_cases (s : Server) (fs : FS) (p : Str) :
    (∃ e fs1, MkdirAll fs (Dir (s.fullpath p)) = (some e, fs1) ∧
      s.createFile fs p = (.error (.wrap e), fs1)) ∨
    (∃ fs1 n, MkdirAll fs (Dir (s.fullpath p)) = (none, fs1) ∧
      fs1.lookup (s.fullpath p) = some n ∧
      s.createFile fs p = (.error (.os .ErrExist), fs1)) ∨
    (∃ fs1, MkdirAll fs (Dir (s.fullpath p)) = (none, fs1) ∧
      fs1.lookup (s.fullpath p) = none ∧
      s.createFile fs p = (.ok (s.fullpath p), (s.fullpath p, Node.file []) :: fs1)) := by
  cases hm : MkdirAll fs (Dir (s.fullpath p)) with
  | mk e1 fs1 =>
    cases e1 with
    | some e => exact Or.inl ⟨e, fs1, rfl, by simp [Server.createFile, hm]⟩
    | none =>
      right
      cases hs : Stat fs1 (s.fullpath p) with
      | ok n =>
        left
        exact ⟨fs1, n, rfl, Stat_ok.mp hs, by simp [Server.createFile, hm, hs]⟩
      | error e =>
        right
        obtain ⟨hl, he⟩ := Stat_error hs
        refine ⟨fs1, rfl, hl, ?_⟩
        simp [Server.createFile, hm, hs, he, Error.Is, Create_free hl]

theorem createFile_grows (s : Server) (fs : FS) (p : Str) :
    Grows fs (s.createFile fs p).2 := by
  have hg : Grows fs (MkdirAll fs (Dir (s.fullpath p))).2 := MkdirAllAux_grows _ _ _
  rcases createFile_cases s fs p with ⟨e, fs1, hm, hc⟩ | ⟨fs1, n, hm, _, hc⟩ | ⟨fs1, hm, hl, hc⟩
  · rw [hc]; rw [hm] at hg; exact hg
  · rw [hc]; rw [hm] at hg; exact hg
  · rw [hc]; rw [hm] at hg; exact hg.trans (grows_cons _ hl)

/-- Once the full path is taken, `Server.createFile` returns `os.ErrExist` and
leaves the state as it is. -/
theorem createFile_taken (s : Server) (fs : FS) (p : Str) (h : Taken (s.fullpath p) fs) :
    s.createFile fs p = (.error (.os .ErrExist), fs) := by
  obtain ⟨hd, n, hn⟩ := h
  have hm : MkdirAll fs (Dir (s.fullpath p)) = (none, fs) := MkdirAllAux_dir _ fs _ hd
  simp [Server.createFile, hm, Stat_ok.mpr hn]

/-- A call of `Server.createFile` that returns a handle leaves the full path
taken. -/
theorem createFile_ok (s : Server) (fs : FS) (p : Str) (h : File)
    (hr : (s.createFile fs p).1 = .ok h) : Taken (s.fullpath p) (s.createFile fs p).2 := by
  rcases createFile_cases s fs p with ⟨e, fs1, hm, hc⟩ | ⟨fs1, n, hm, _, hc⟩ | ⟨fs1, hm, hl, hc⟩
  · rw [hc] at hr; simp at hr
  · rw [hc] at hr; simp at hr
  · rw [hc]
    have hd : fs1.lookup (Dir (s.fullpath p)) = some Node.dir := MkdirAllAux_ok _ fs fs1 _ hm
    exact ⟨((grows_cons (Node.file []) hl) _).1 hd, _, lookup_cons_self⟩

theorem write_grows : ∀ (fs : FS) (f : File) (bytes : Str), Grows fs (fs.write f bytes) := by
  intro fs
  induction fs with
  | nil => intro f bytes; exact Grows.refl _
  | cons x fs ih =>
    intro f bytes
    obtain ⟨name, node⟩ := x
    unfold FS.write
    by_cases hn : name = f
    · simp only [hn, if_true]
      cases node with
      | dir => exact Grows.refl _
      | file old =>
        intro k
        by_cases hk : k = f
        · subst hk
          simp [List.lookup]
        · rw [lookup_cons_ne hk, lookup_cons_ne hk]
          exact ⟨id, id⟩
    · simp only [hn, if_false]
      intro k
      by_cases hk : k = name
      · subst hk
        rw [lookup_cons_self, lookup_cons_self]
        exact ⟨id, id⟩
      · rw [lookup_cons_ne hk, lookup_cons_ne hk]
        exact ih f bytes k

/-- What `Server.putFile` does, case by case. -/
theorem putFile_cases (s : Server) (fs : FS) (r : Request) :
    (Clean r.URL.Path = ['.'] ∧ s.putFile fs r = (StatusForbidden, fs)) ∨
    (Clean r.URL.Path ≠ ['.'] ∧ ∃ e, (s.createFile fs (Clean r.URL.Path)).1 = .error e ∧
      s.putFile fs r =
        (if e.Is .ErrExist then StatusConflict else StatusInternalServerError,
          (s.createFile fs (Clean r.URL.Path)).2)) ∨
    (Clean r.URL.Path ≠ ['.'] ∧ ∃ f, (s.createFile fs (Clean r.URL.Path)).1 = .ok f ∧
      s.putFile fs r =
        (if r.bodyErr then StatusInternalServerError else StatusCreated,
          (s.createFile fs (Clean r.URL.Path)).2.write f r.Body)) := by
  by_cases hd : Clean r.URL.Path = ['.']
  · left; simp [Server.putFile, hd]
  · right
    cases hc : s.createFile fs (Clean r.URL.Path) with
    | mk res fs1 =>
      cases res with
      | error e =>
        left
        refine ⟨hd, e, rfl, ?_⟩
        by_cases he : e.Is .ErrExist <;> simp [Server.putFile, hd, hc, he]
      | ok f =>
        right
        refine ⟨hd, f, rfl, ?_⟩
        cases hb : r.bodyErr <;> simp [Server.putFile, hd, hc, hb]

theorem putFile_grows (s : Server) (fs : FS) (r : Request) : Grows fs (s.putFile fs r).2 := by
  rcases putFile_cases s fs r with ⟨_, h⟩ | ⟨_, e, _, h⟩ | ⟨_, f, _, h⟩
  · rw [h]; exact Grows.refl _
  · rw [h]; exact createFile_grows s fs _
  · rw [h]; exact (createFile_grows s fs _).trans (write_grows _ _ _)

/-- An upload answered 201 leaves its full path taken. -/
theorem putFile_created (s : Server) (fs : FS) (r : Request)
    (h : (s.putFile fs r).1 = StatusCreated) :
    (∃ f, (s.createFile fs (Clean r.URL.Path)).1 = .ok f) ∧
    Taken (s.fullpath (Clean r.URL.Path)) (s.putFile fs r).2 := by
  rcases putFile_cases s fs r with ⟨_, hp⟩ | ⟨_, e, _, hp⟩ | ⟨_, f, hf, hp⟩
  · rw [hp] at h
    simp [StatusForbidden, StatusCreated] at h
  · rw [hp] at h
    by_cases he : e.Is .ErrExist <;>
      simp [he, StatusConflict, StatusInternalServerError, StatusCreated] at h
  · refine ⟨⟨f, hf⟩, ?_⟩
    rw [hp]
    exact (createFile_ok s fs _ f hf).grows (write_grows _ _ _)

/-- An upload to a full path that is taken changes nothing and is answered 409,
or 403 by the guard. -/
theorem putFile_taken (s : Server) (fs : FS) (r : Request)
    (h : Taken (s.fullpath (Clean r.URL.Path)) fs) :
    (s.putFile fs r).2 = fs ∧
    ((s.putFile fs r).1 = StatusConflict ∨ (s.putFile fs r).1 = StatusForbidden) := by
  have hc := createFile_taken s fs _ h
  rcases putFile_cases s fs r with ⟨_, hp⟩ | ⟨_, e, he, hp⟩ | ⟨_, f, hf, hp⟩
  · rw [hp]; exact ⟨rfl, Or.inr rfl⟩
  · rw [hp, hc]
    rw [hc] at he
    simp only [Except.error.injEq] at he
    rw [← he]
    exact ⟨rfl, Or.inl (by simp [Error.Is])⟩
  · rw [hc] at hf; simp at hf

/-! ## The names that `putFile` creates -/

theorem Mkdir_names (fs : FS) (name k : Str) (h : (Mkdir fs name).2.lookup k ≠ none) :
    k = name ∨ fs.lookup k ≠ none := by
  unfold Mkdir at h
  cases hl : fs.lookup name with
  | some n => rw [hl] at h; exact Or.inr h
  | none =>
    rw [hl] at h
    by_cases hk : k = name
    · exact Or.inl hk
    · right
      simp only at h
      rw [lookup_cons_ne hk] at h
      exact h

/-- A name that is bound after `os.MkdirAll` was bound before, or is the path,
or is bound after the call for the parent. -/
theorem MkdirAllAux_names (fuel : Nat) (fs : FS) (path k : Str)
    (h : (MkdirAllAux fuel fs path).2.lookup k ≠ none) :
    k = path ∨ fs.lookup k ≠ none ∨
      (0 < fuel ∧ mkdirAllParent path ≠ [] ∧
        (MkdirAllAux (fuel - 1) fs (mkdirAllParent path)).2.lookup k ≠ none) := by
  have key : ∀ fs1 : FS,
      (match Mkdir fs1 path with
        | (none, fs2) => ((none : Option Error), fs2)
        | (some e, fs2) =>
          match Stat fs2 path with
          | .ok .dir => (none, fs2)
          | _ => (some e, fs2)).2.lookup k ≠ none → k = path ∨ fs1.lookup k ≠ none := by
    intro fs1 hk
    apply Mkdir_names fs1 path k
    cases hmk : Mkdir fs1 path with
    | mk e1 fs2 =>
      rw [hmk] at hk
      cases e1 with
      | none => exact hk
      | some e2 =>
        simp only [] at hk
        revert hk
        split <;> exact id
  unfold MkdirAllAux at h
  cases hs : Stat fs path with
  | ok n =>
    rw [hs] at h
    cases n <;> exact Or.inr (Or.inl h)
  | error e =>
    rw [hs] at h
    simp only [] at h
    cases fuel with
    | zero =>
      rcases key fs h with hk | hk
      · exact Or.inl hk
      · exact Or.inr (Or.inl hk)
    | succ fuel =>
      simp only [] at h
      by_cases hp : (mkdirAllParent path).length > 0
      · simp only [hp, if_true] at h
        have hpne : mkdirAllParent path ≠ [] := List.length_pos.mp hp
        cases hr : MkdirAllAux fuel fs (mkdirAllParent path) with
        | mk e1 fs1 =>
          rw [hr] at h
          have hfs1 : fs1 = (MkdirAllAux (fuel + 1 - 1) fs (mkdirAllParent path)).2 := by
            simp [hr]
          cases e1 with
          | some e2 =>
            simp only [] at h
            exact Or.inr (Or.inr ⟨Nat.succ_pos _, hpne, by rw [← hfs1]; exact h⟩)
          | none =>
            simp only [] at h
            rcases key fs1 h with hk | hk
            · exact Or.inl hk
            · exact Or.inr (Or.inr ⟨Nat.succ_pos _, hpne, by rw [← hfs1]; exact hk⟩)
      · simp only [hp, if_false] at h
        rcases key fs h with hk | hk
        · exact Or.inl hk
        · exact Or.inr (Or.inl hk)

theorem write_names : ∀ (fs : FS) (f : File) (bytes : Str) (k : Str),
    (fs.write f bytes).lookup k ≠ none → fs.lookup k ≠ none := by
  intro fs
  induction fs with
  | nil => intro f bytes k h; exact h
  | cons x fs ih =>
    intro f bytes k h
    obtain ⟨name, node⟩ := x
    unfold FS.write at h
    by_cases hk : k = name
    · subst hk; rw [lookup_cons_self]; simp
    · rw [lookup_cons_ne hk]
      by_cases hn : name = f
      · simp only [hn, if_true] at h
        cases node with
        | dir =>
          simp only [] at h
          rw [← hn, lookup_cons_ne hk] at h
          exact h
        | file old =>
          simp only [] at h
          rw [← hn, lookup_cons_ne hk] at h
          exact h
      · simp only [hn, if_false] at h
        rw [lookup_cons_ne hk] at h
        exact ih f bytes k h


/-! ## Full paths under every storage root -/

theorem rootState_of_Clean_slash (q : Str) (h : Clean ('/' :: q) = ['/']) :
    cleanLoop true false q { out := ['/'], dotdot := 1 } = CleanState.mk ['/'] 1 := by
  obtain ⟨hdd, segs0, hn0, hout⟩ := cleanLoop_rootInv q
  have hne : rootBuf segs0 ≠ [] := by
    unfold rootBuf
    by_cases h0 : segs0 = []
    · simp [h0]
    · simp only [h0, if_false]
      exact fun e => h0 (slashed_eq_nil.mp e)
  have hcl : Clean ('/' :: q) = rootBuf segs0 := by
    rw [Clean_cons_slash, hout]
    simp [hne]
  have hs : segs0 = [] := by
    apply (rootBuf_length_one hn0).mp
    rw [← hcl, h]; rfl
  rw [hs] at hout
  cases hst : cleanLoop true false q { out := ['/'], dotdot := 1 } with
  | mk out dd =>
    rw [hst] at hout hdd
    simp only at hout hdd
    rw [hout, hdd]
    rfl

theorem Clean_rel_ne_slash (c : Char) (q : Str) (hc : c ≠ '/') : Clean (c :: q) ≠ ['/'] := by
  obtain ⟨k, segs, hn, hout, _⟩ := cleanLoop_relInv (c :: q)
  rw [Clean_cons_other c q hc, hout]
  by_cases h0 : dots k ++ segs = []
  · rw [h0]; decide
  · have hel := rel_elem_ne_nil (k := k) hn
    have hsl := rel_elem_no_slash (k := k) hn
    have hun : unslashed (dots k ++ segs) ≠ [] := fun e => h0 ((unslashed_eq_nil hel).mp e)
    simp only [List.length_reverse, List.length_eq_zero, hun, if_false, List.reverse_reverse]
    cases hl : dots k ++ segs with
    | nil => exact absurd hl h0
    | cons e t =>
      have he : e ≠ [] := hel e (by rw [hl]; simp)
      have hes : '/' ∉ e := hsl e (by rw [hl]; simp)
      cases he' : e with
      | nil => exact absurd he' he
      | cons c2 e2 =>
        have hc2 : c2 ≠ '/' := fun h => hes (by rw [he', h]; simp)
        rw [unslashed_cons, List.cons_append]
        intro heq
        exact hc2 (List.cons.inj heq).1

/-- Under a storage root that cleans to `/`, the full path of `/s1/.../sn` is
`/s1/.../sn`. -/
theorem Clean_append_slashed_slash (root : Str) (segs : List Str)
    (hn : ∀ s ∈ segs, Normal s) (hne : segs ≠ []) (h : Clean root = ['/']) :
    Clean (root ++ '/' :: slashed segs) = slashed segs := by
  cases root with
  | nil => exact absurd h (by decide)
  | cons c q =>
    by_cases hc : c = '/'
    · subst hc
      have hst := rootState_of_Clean_slash q h
      have h2 := Clean_slashed segs hn hne
      cases segs with
      | nil => exact absurd rfl hne
      | cons s t =>
        have e1 : slashed (s :: t) = '/' :: (s ++ slashed t) := by simp [slashed]
        rw [e1, Clean_cons_slash] at h2
        rw [List.cons_append, Clean_cons_slash,
          cleanLoop_append_slash true q.length q _ _ (Nat.le_refl _), hst, e1,
          cleanLoop_skip_slash]
        exact h2
    · exact absurd h (Clean_rel_ne_slash c q hc)

theorem relState_of_Clean_dot (c : Char) (q : Str) (hc : c ≠ '/')
    (h : Clean (c :: q) = ['.']) :
    cleanLoop false false (c :: q) { out := [], dotdot := 0 } = CleanState.mk [] 0 := by
  obtain ⟨k, segs, hn, hout, hdd⟩ := cleanLoop_relInv (c :: q)
  have hel := rel_elem_ne_nil (k := k) hn
  have h0 : dots k ++ segs = [] := by
    by_contra h0
    have hun : unslashed (dots k ++ segs) ≠ [] := fun e => h0 ((unslashed_eq_nil hel).mp e)
    rw [Clean_cons_other c q hc, hout] at h
    simp only [List.length_reverse, List.length_eq_zero, hun, if_false,
      List.reverse_reverse] at h
    cases hl : dots k ++ segs with
    | nil => exact h0 hl
    | cons e t =>
      rw [hl, unslashed_cons] at h
      have he : e ≠ [] := hel e (by rw [hl]; simp)
      cases t with
      | nil =>
        simp only [slashed, List.append_nil] at h
        have hmem : e ∈ dots k ++ segs := by rw [hl]; simp
        rcases List.mem_append.mp hmem with hd | hs
        · rw [dots_elem hd] at h; exact absurd h (by decide)
        · exact (hn e hs).2.2.1 h
      | cons e2 t2 =>
        have hlen := congrArg List.length h
        have : 1 ≤ e.length := List.length_pos.mpr he
        simp [slashed] at hlen
        omega
  have hk : dots k = [] := (List.append_eq_nil.mp h0).1
  rw [h0] at hout
  rw [hk] at hdd
  cases hst : cleanLoop false false (c :: q) { out := [], dotdot := 0 } with
  | mk out dd =>
    rw [hst] at hout hdd
    simp only at hout hdd
    rw [hout, hdd]
    rfl

/-- Under a storage root that cleans to `.`, the full path of `/s1/.../sn` is
`s1/.../sn`. -/
theorem Clean_append_slashed_dot (root : Str) (segs : List Str)
    (hn : ∀ s ∈ segs, Normal s) (hne : segs ≠ []) (hroot : root ≠ [])
    (h : Clean root = ['.']) :
    Clean (root ++ '/' :: slashed segs) = unslashed segs := by
  cases root with
  | nil => exact absurd rfl hroot
  | cons c q =>
    by_cases hc : c = '/'
    · subst hc
      obtain ⟨segs0, hn0, hcl⟩ := Clean_rooted q
      rw [hcl] at h
      unfold rootBuf at h
      by_cases h0 : segs0 = []
      · rw [h0] at h; exact absurd h (by decide)
      · simp only [h0, if_false] at h
        cases segs0 with
        | nil => exact absurd rfl h0
        | cons s t => simp [slashed] at h
    · have hst := relState_of_Clean_dot c q hc h
      have hsl : ∀ e ∈ segs, '/' ∉ e := fun e he => (hn e he).2.1
      have hout : (cleanLoop false false (unslashed segs) { out := [], dotdot := 0 }).out =
          (unslashed segs).reverse := by
        rw [cleanLoop_unslashed false segs _ hsl]
        exact foldl_segStep_normal segs _ [] hn (by simp) rfl
      have hun : unslashed segs ≠ [] :=
        fun e => hne ((unslashed_eq_nil (fun x hx => (hn x hx).1)).mp e)
      have hsk : slashed segs = '/' :: unslashed segs := by
        cases segs with
        | nil => exact absurd rfl hne
        | cons s t => simp [slashed, unslashed]
      rw [List.cons_append, Clean_cons_other c _ hc, ← List.cons_append,
        cleanLoop_append_slash false (c :: q).length (c :: q) _ _ (Nat.le_refl _), hst, hsk,
        cleanLoop_skip_slash]
      show (if (cleanLoop false false (unslashed segs) { out := [], dotdot := 0 }).out.length = 0
        then ['.']
        else (cleanLoop false false (unslashed segs) { out := [], dotdot := 0 }).out.reverse) =
          unslashed segs
      rw [hout]
      simp [hun]

/-- The full path that `createFile` computes for a cleaned path `/s1/.../sn` is
the name of the elements under the cleaned storage root. -/
theorem fullpath_under (s : Server) (segs : List Str) (hn : ∀ seg ∈ segs, Normal seg)
    (hne : segs ≠ []) (hroot : s.config.StoragePath ≠ []) :
    s.fullpath (slashed segs) = under (Clean s.config.StoragePath) segs := by
  unfold Server.fullpath
  rw [Clean_slashed segs hn hne, Join_two _ _ hroot]
  unfold under
  simp only [hne, if_false]
  by_cases h1 : Clean s.config.StoragePath = ['.']
  · simp only [h1, if_true]
    exact Clean_append_slashed_dot _ segs hn hne hroot h1
  · by_cases h2 : Clean s.config.StoragePath = ['/']
    · rw [if_neg h1, if_pos h2]
      exact Clean_append_slashed_slash _ segs hn hne h2
    · rw [if_neg h1, if_neg h2]
      exact Clean_append_slashed _ segs hn h1 h2

/-- The full path of a path that cleans to `/` is the cleaned storage root. -/
theorem fullpath_slash (s : Server) (hroot : s.config.StoragePath ≠ []) :
    s.fullpath ['/'] = Clean s.config.StoragePath := by
  unfold Server.fullpath
  have hc : Clean ['/'] = ['/'] := by decide
  rw [hc, Join_two _ _ hroot, Clean_double_slash _ [] hroot]
  exact Clean_trailing_slash _ hroot

/-! ## Directories under every storage root -/

theorem dropWhile_no_slash : ∀ l : Str, '/' ∉ l → l.dropWhile (fun c => c != '/') = [] := by
  intro l
  induction l with
  | nil => intro _; rfl
  | cons c l ih =>
    intro h
    have hc : c ≠ '/' := fun e => h (by simp [e])
    have hl : '/' ∉ l := fun h' => h (List.mem_cons_of_mem _ h')
    have hb : (c != '/') = true := by simp [hc]
    simp [List.dropWhile, hb, ih hl]

theorem SplitDir_no_slash (l : Str) (h : '/' ∉ l) : SplitDir l = [] := by
  unfold SplitDir
  rw [dropWhile_no_slash _ (fun h' => h (List.mem_reverse.mp h'))]
  rfl

theorem mkdirAllParent_no_slash (l : Str) (h : '/' ∉ l) : mkdirAllParent l = [] := by
  unfold mkdirAllParent
  have h' : '/' ∉ l.reverse := fun x => h (List.mem_reverse.mp x)
  have h1 : l.reverse.dropWhile (fun c => c == '/') = l.reverse := by
    cases hr : l.reverse with
    | nil => rfl
    | cons c t =>
      have hc : c ≠ '/' := fun e => h' (by rw [hr, e]; simp)
      have hb : (c == '/') = false := by simp [hc]
      simp [List.dropWhile, hb]
  rw [h1, dropWhile_no_slash _ h']
  rfl

theorem Clean_ne_nil (x : Str) : Clean x ≠ [] := by
  intro e
  have := Clean_idem x
  rw [e] at this
  exact absurd this (by decide)

theorem under_nil (R : Str) : under R [] = R := by simp [under]

theorem under_dot (segs : List Str) (h : segs ≠ []) : under ['.'] segs = unslashed segs := by
  simp [under, h]

theorem under_slash (segs : List Str) (h : segs ≠ []) : under ['/'] segs = slashed segs := by
  simp [under, h]

theorem under_other (R : Str) (segs : List Str) (h1 : R ≠ ['.']) (h2 : R ≠ ['/']) :
    under R segs = R ++ slashed segs := by
  by_cases h : segs = []
  · simp [under, h, slashed]
  · simp [under, h, h1, h2]

/-- The directory of the name of `s1/.../sn` under a cleaned root is the name of
`s1/.../s(n-1)` under it. -/
theorem Dir_under (R : Str) (hR : Clean R = R) (init : List Str) (last : Str)
    (hn : ∀ s ∈ init, Normal s) (hlast : Normal last) :
    Dir (under R (init ++ [last])) = under R init := by
  have hne : init ++ [last] ≠ [] := by simp
  by_cases h1 : R = ['.']
  · subst h1
    rw [under_dot _ hne]
    by_cases hi : init = []
    · subst hi
      rw [under_nil, List.nil_append, unslashed_singleton]
      unfold Dir
      rw [SplitDir_no_slash _ hlast.2.1]
      rfl
    · have hun : unslashed init ≠ [] :=
        fun e => hi ((unslashed_eq_nil (fun x hx => (hn x hx).1)).mp e)
      rw [under_dot _ hi, unslashed_concat _ _ hi]
      unfold Dir
      rw [SplitDir_last _ _ hlast.2.1, Clean_trailing_slash _ hun]
      exact Clean_unslashed 0 init hn hi
  · by_cases h2 : R = ['/']
    · subst h2
      rw [under_slash _ hne]
      have hsl : slashed (init ++ [last]) = slashed init ++ '/' :: last := by
        simp [slashed_append, slashed]
      unfold Dir
      rw [hsl, SplitDir_last _ _ hlast.2.1]
      by_cases hi : init = []
      · subst hi
        rw [under_nil]
        rfl
      · rw [under_slash _ hi, Clean_trailing_slash _ (fun e => hi (slashed_eq_nil.mp e))]
        exact Clean_slashed init hn hi
    · rw [under_other _ _ h1 h2, under_other _ _ h1 h2]
      have h := Dir_root_slashed R init last hn hlast (by rw [hR]; exact h1)
        (by rw [hR]; exact h2)
      rw [hR] at h
      exact h

/-- The parent that `os.MkdirAll` computes for the name of `s1/.../sn` under a
root is the name of `s1/.../s(n-1)` under it, or there is none. -/
theorem mkdirAllParent_under (R : Str) (init : List Str) (last : Str) (hlast : Normal last) :
    mkdirAllParent (under R (init ++ [last])) = [] ∨
    mkdirAllParent (under R (init ++ [last])) = under R init := by
  have hne : init ++ [last] ≠ [] := by simp
  by_cases h1 : R = ['.']
  · subst h1
    rw [under_dot _ hne]
    by_cases hi : init = []
    · subst hi
      left
      rw [List.nil_append, unslashed_singleton]
      exact mkdirAllParent_no_slash _ hlast.2.1
    · right
      rw [under_dot _ hi, unslashed_concat _ _ hi]
      exact mkdirAllParent_last _ _ hlast.1 hlast.2.1
  · by_cases h2 : R = ['/']
    · subst h2
      have hsl : slashed (init ++ [last]) = slashed init ++ '/' :: last := by
        simp [slashed_append, slashed]
      rw [under_slash _ hne, hsl, mkdirAllParent_last _ _ hlast.1 hlast.2.1]
      by_cases hi : init = []
      · subst hi
        left
        rfl
      · right
        rw [under_slash _ hi]
    · right
      have hsl : R ++ slashed (init ++ [last]) = (R ++ slashed init) ++ '/' :: last := by
        simp [slashed_append, slashed]
      rw [under_other _ _ h1 h2, under_other _ _ h1 h2, hsl]
      exact mkdirAllParent_last _ _ hlast.1 hlast.2.1

/-- When the root is a directory, `os.MkdirAll` on a name under the root binds
only names under the root: the recursion to the parents ends at the root. -/
theorem MkdirAllAux_inside (R : Str) (fs : FS) (hR : fs.lookup R = some Node.dir) :
    ∀ (segs : List Str), (∀ s ∈ segs, Normal s) → ∀ (fuel : Nat) (k : Str),
      (MkdirAllAux fuel fs (under R segs)).2.lookup k ≠ none →
        fs.lookup k ≠ none ∨ Inside R k := by
  intro segs
  induction segs using List.reverseRecOn with
  | nil =>
    intro _ fuel k h
    rw [under_nil, MkdirAllAux_dir fuel fs R hR] at h
    exact Or.inl h
  | append_singleton init last ih =>
    intro hn fuel k h
    have hlast : Normal last := hn last (by simp)
    have hinit : ∀ s ∈ init, Normal s := fun s hs => hn s (by simp [hs])
    rcases MkdirAllAux_names fuel fs _ k h with hk | hk | ⟨_, hp, hk⟩
    · exact Or.inr ⟨init ++ [last], by simp, hn, hk⟩
    · exact Or.inl hk
    · rcases mkdirAllParent_under R init last hlast with h0 | h0
      · exact absurd h0 hp
      · rw [h0] at hk
        exact ih hinit _ k hk

/-- Under a storage root that is a directory, `createFile` on a cleaned rooted
path binds only names under the root. -/
theorem createFile_inside (s : Server) (fs : FS) (segs : List Str)
    (hn : ∀ seg ∈ segs, Normal seg) (hne : segs ≠ [])
    (hroot : s.config.StoragePath ≠ [])
    (hR : fs.lookup (Clean s.config.StoragePath) = some Node.dir) (k : Str)
    (h : (s.createFile fs (slashed segs)).2.lookup k ≠ none) :
    fs.lookup k ≠ none ∨ Inside (Clean s.config.StoragePath) k := by
  have hF := fullpath_under s segs hn hne hroot
  obtain ⟨init, last, hil⟩ : ∃ init last, segs = init ++ [last] := by
    rcases List.eq_nil_or_concat segs with h0 | ⟨init, last, h0⟩
    · exact absurd h0 hne
    · exact ⟨init, last, by rw [h0, List.concat_eq_append]⟩
  have hlast : Normal last := hn last (by rw [hil]; simp)
  have hinit : ∀ x ∈ init, Normal x := fun x hx => hn x (by rw [hil]; simp [hx])
  have hdir : Dir (s.fullpath (slashed segs)) = under (Clean s.config.StoragePath) init := by
    rw [hF, hil]
    exact Dir_under _ (Clean_idem _) init last hinit hlast
  have hmk : ∀ k, (MkdirAll fs (Dir (s.fullpath (slashed segs)))).2.lookup k ≠ none →
      fs.lookup k ≠ none ∨ Inside (Clean s.config.StoragePath) k := by
    intro k hk
    rw [hdir] at hk
    exact MkdirAllAux_inside _ fs hR init hinit _ k hk
  rcases createFile_cases s fs (slashed segs) with
    ⟨e, fs1, hm, hc⟩ | ⟨fs1, n, hm, _, hc⟩ | ⟨fs1, hm, hl, hc⟩
  · rw [hc] at h; rw [hm] at hmk; exact hmk k h
  · rw [hc] at h; rw [hm] at hmk; exact hmk k h
  · rw [hc] at h
    rw [hm] at hmk
    by_cases hk : k = s.fullpath (slashed segs)
    · exact Or.inr ⟨segs, hne, hn, by rw [hk, hF]⟩
    · simp only at h
      rw [lookup_cons_ne hk] at h
      exact hmk k h

/-- The canonical form that the router computes for a path that cleans to the
root is `/`. -/
theorem cleanPath_root (p : Str) (h : p = [] ∨ (p.head? = some '/' ∧ Clean p = ['/'])) :
    cleanPath p = ['/'] := by
  rcases h with h | ⟨h1, h2⟩
  · subst h; rfl
  · have hne : p ≠ [] := by
      intro e
      rw [e] at h1
      simp at h1
    simp [cleanPath, hne, h1, h2]

/-! ## Claims on the paths of `putFile` -/

/-- C6, as amended: for a storage root that is not empty and a request path that
is empty or begins with a slash, `putFile` answers 403 and leaves the file
system alone (the empty path); or the path cleans to `/`, the full path is the
cleaned storage root itself and, when the root and its parent directory exist,
`putFile` answers 409 and leaves the file system alone; or the cleaned path is
`/s1/.../sn` for elements that are not empty, hold no slash and are neither `.`
nor `..`, the full path that `createFile` computes is the name of these
elements under the cleaned storage root (the cleaned root followed by the
cleaned path when the root is neither `.` nor `/`), and, when the storage root
is a directory of the file system, every name that is bound after `putFile` was
bound before or is the name of such elements under the cleaned root. -/
theorem putFile_path_confined (s : Server) (fs : FS) (r : Request)
    (hroot : s.config.StoragePath ≠ [])
    (hpath : r.URL.Path = [] ∨ r.URL.Path.head? = some '/') :
    s.putFile fs r = (StatusForbidden, fs) ∨
    (Clean r.URL.Path = ['/'] ∧
      s.fullpath (Clean r.URL.Path) = Clean s.config.StoragePath ∧
      (fs.lookup (Clean s.config.StoragePath) = some Node.dir →
        fs.lookup (Dir (Clean s.config.StoragePath)) = some Node.dir →
          s.putFile fs r = (StatusConflict, fs))) ∨
    ∃ segs : List Str, segs ≠ [] ∧ (∀ seg ∈ segs, Normal seg) ∧
      Clean r.URL.Path = slashed segs ∧
      s.fullpath (Clean r.URL.Path) = under (Clean s.config.StoragePath) segs ∧
      (Clean s.config.StoragePath ≠ ['.'] → Clean s.config.StoragePath ≠ ['/'] →
        s.fullpath (Clean r.URL.Path) = Clean s.config.StoragePath ++ slashed segs) ∧
      (fs.lookup (Clean s.config.StoragePath) = some Node.dir →
        ∀ k : Str, (s.putFile fs r).2.lookup k ≠ none →
          fs.lookup k ≠ none ∨ Inside (Clean s.config.StoragePath) k) := by
  rcases hpath with hp | hp
  · left
    simp [Server.putFile, hp, Clean]
  · right
    cases hq : r.URL.Path with
    | nil => rw [hq] at hp; simp at hp
    | cons c q =>
      rw [hq] at hp
      have hc : c = '/' := by simpa using hp
      subst hc
      obtain ⟨segs, hn, hcl⟩ := Clean_rooted q
      rw [← hq] at hcl ⊢
      by_cases hs : segs = []
      · left
        have hcl' : Clean r.URL.Path = ['/'] := by rw [hcl, hs]; rfl
        have hfull : s.fullpath (Clean r.URL.Path) = Clean s.config.StoragePath := by
          rw [hcl']; exact fullpath_slash s hroot
        refine ⟨hcl', hfull, ?_⟩
        intro hR hD
        have ht : Taken (s.fullpath (Clean r.URL.Path)) fs := by
          rw [hfull]; exact ⟨hD, _, hR⟩
        have hcf := createFile_taken s fs _ ht
        have hd : Clean r.URL.Path ≠ ['.'] := by rw [hcl']; decide
        simp [Server.putFile, hd, hcf, Error.Is]
      · right
        have hrb : rootBuf segs = slashed segs := by simp [rootBuf, hs]
        have hcl' : Clean r.URL.Path = slashed segs := by rw [hcl, hrb]
        have hfull : s.fullpath (Clean r.URL.Path) =
            under (Clean s.config.StoragePath) segs := by
          rw [hcl']; exact fullpath_under s segs hn hs hroot
        refine ⟨segs, hs, hn, hcl', hfull, ?_, ?_⟩
        · intro h1 h2
          rw [hfull]
          exact under_other _ _ h1 h2
        · intro hR k hk
          have hcf := createFile_inside s fs segs hn hs hroot hR k
          rcases putFile_cases s fs r with ⟨_, h⟩ | ⟨_, e, _, h⟩ | ⟨_, f, _, h⟩
          · rw [h] at hk; exact Or.inl hk
          · rw [h, hcl'] at hk; exact hcf hk
          · rw [h, hcl'] at hk; exact hcf (write_names _ _ _ k hk)

/-- C6 at a request for `/a/../b/./c.png` on the sample server: the full path is
`data/b/c.png`. -/
theorem putFile_path_confined_witness :
    sampleServer.config.StoragePath ≠ [] ∧
    (mkRequest "/a/../b/./c.png" [] []).URL.Path.head? = some '/' ∧
    sampleFS.lookup (Clean sampleServer.config.StoragePath) = some Node.dir ∧
    sampleServer.fullpath (Clean (mkRequest "/a/../b/./c.png" [] []).URL.Path) =
      "data/b/c.png".toList ∧
    (sampleServer.putFile sampleFS (mkRequest "/a/../b/./c.png" [] []) =
        (StatusForbidden, sampleFS) ∨
      (Clean (mkRequest "/a/../b/./c.png" [] []).URL.Path = ['/'] ∧
        sampleServer.fullpath (Clean (mkRequest "/a/../b/./c.png" [] []).URL.Path) =
          Clean sampleServer.config.StoragePath ∧
        (sampleFS.lookup (Clean sampleServer.config.StoragePath) = some Node.dir →
          sampleFS.lookup (Dir (Clean sampleServer.config.StoragePath)) = some Node.dir →
            sampleServer.putFile sampleFS (mkRequest "/a/../b/./c.png" [] []) =
              (StatusConflict, sampleFS))) ∨
      ∃ segs : List Str, segs ≠ [] ∧ (∀ seg ∈ segs, Normal seg) ∧
        Clean (mkRequest "/a/../b/./c.png" [] []).URL.Path = slashed segs ∧
        sampleServer.fullpath (Clean (mkRequest "/a/../b/./c.png" [] []).URL.Path) =
          under (Clean sampleServer.config.StoragePath) segs ∧
        (Clean sampleServer.config.StoragePath ≠ ['.'] →
          Clean sampleServer.config.StoragePath ≠ ['/'] →
          sampleServer.fullpath (Clean (mkRequest "/a/../b/./c.png" [] []).URL.Path) =
            Clean sampleServer.config.StoragePath ++ slashed segs) ∧
        (sampleFS.lookup (Clean sampleServer.config.StoragePath) = some Node.dir →
          ∀ k : Str,
            (sampleServer.putFile sampleFS (mkRequest "/a/../b/./c.png" [] [])).2.lookup k
                ≠ none →
              sampleFS.lookup k ≠ none ∨ Inside (Clean sampleServer.config.StoragePath) k)) :=
  ⟨by decide, by decide, by decide, by decide,
    putFile_path_confined sampleServer sampleFS (mkRequest "/a/../b/./c.png" [] [])
      (by decide) (Or.inr (by decide))⟩

/-- C6 as stated fails in its parenthesis under the storage roots `.` and `/`.
The authorised upload to `/a` goes through the router and the middleware to
`putFile` and is answered 201; under the root `.` the full path is `a` and under
the root `/` it is `/a`, and neither is the cleaned storage root followed by a
slash and a remainder. -/
theorem putFile_path_not_confined :
    (dotServer.ServeHTTP sampleH sampleFS reqA =
        (Response.status StatusCreated,
          ("a".toList, Node.file "0123456789".toList) :: sampleFS) ∧
      dotServer.putFile sampleFS reqA =
        (StatusCreated, ("a".toList, Node.file "0123456789".toList) :: sampleFS) ∧
      dotServer.fullpath (Clean reqA.URL.Path) = "a".toList ∧
      Clean dotServer.config.StoragePath = ".".toList ∧
      ∀ rem : Str, dotServer.fullpath (Clean reqA.URL.Path) ≠
        Clean dotServer.config.StoragePath ++ '/' :: rem) ∧
    (slashServer.ServeHTTP sampleH slashFS reqA =
        (Response.status StatusCreated,
          ("/a".toList, Node.file "0123456789".toList) :: slashFS) ∧
      slashServer.putFile slashFS reqA =
        (StatusCreated, ("/a".toList, Node.file "0123456789".toList) :: slashFS) ∧
      slashServer.fullpath (Clean reqA.URL.Path) = "/a".toList ∧
      Clean slashServer.config.StoragePath = "/".toList ∧
      ∀ rem : Str, slashServer.fullpath (Clean reqA.URL.Path) ≠
        Clean slashServer.config.StoragePath ++ '/' :: rem) := by
  refine ⟨⟨by decide, by decide, by decide, by decide, ?_⟩,
    ⟨by decide, by decide, by decide, by decide, ?_⟩⟩
  · intro rem h
    have h1 : dotServer.fullpath (Clean reqA.URL.Path) = "a".toList := by decide
    have h2 : Clean dotServer.config.StoragePath = ".".toList := by decide
    rw [h1, h2] at h
    simp at h
  · intro rem h
    have h1 : slashServer.fullpath (Clean reqA.URL.Path) = "/a".toList := by decide
    have h2 : Clean slashServer.config.StoragePath = "/".toList := by decide
    rw [h1, h2] at h
    simp at h

/-! ## Claims on the root path -/

/-- C7, as amended: a request whose path is empty, or begins with a slash and
cleans to `/`, does not reach `putFile` and leaves the file system alone,
whatever its method and token: the router answers 404 Not Found for the path
`/` itself, by the route for `/`, and redirects every other such path to `/`.
The guard of `putFile` answers 403 Forbidden, before `createFile` and with the
file system left alone, a path that cleans to `.`, as the empty path does. -/
theorem ServeHTTP_root_path (H : Str → Str → Str) (s : Server) (fs : FS) (r : Request)
    (hp : r.URL.Path = [] ∨ (r.URL.Path.head? = some '/' ∧ Clean r.URL.Path = ['/'])) :
    (s.ServeHTTP H fs r).2 = fs ∧
    (r.URL.Path = ['/'] → (s.ServeHTTP H fs r).1 = Response.status StatusNotFound) ∧
    (r.URL.Path ≠ ['/'] → (s.ServeHTTP H fs r).1 = Response.redirect ['/']) ∧
    (Clean r.URL.Path = ['.'] → s.putFile fs r = (StatusForbidden, fs)) := by
  have hcp := cleanPath_root r.URL.Path hp
  have hput : Clean r.URL.Path = ['.'] → s.putFile fs r = (StatusForbidden, fs) := by
    intro hd
    simp [Server.putFile, hd]
  by_cases hroot : r.URL.Path = ['/']
  · have hc1 : cleanPath ['/'] = ['/'] := by decide
    refine ⟨?_, ?_, fun h => absurd hroot h, hput⟩
    · simp [Server.ServeHTTP, hc1, hroot]
    · intro _
      simp [Server.ServeHTTP, hc1, hroot]
  · have hne : ¬ (['/'] = r.URL.Path) := fun e => hroot e.symm
    refine ⟨?_, fun h => absurd h hroot, ?_, hput⟩
    · simp [Server.ServeHTTP, hcp, hne]
    · intro _
      simp [Server.ServeHTTP, hcp, hne]

/-- C7 at the authorised PUT request for `/a/..`: it is redirected to `/`. -/
theorem ServeHTTP_root_path_witness :
    (reqRootDots.URL.Path.head? = some '/' ∧ Clean reqRootDots.URL.Path = ['/']) ∧
    reqRootDots.URL.Path ≠ ['/'] ∧
    ((sampleServer.ServeHTTP sampleH sampleFS reqRootDots).2 = sampleFS ∧
      (reqRootDots.URL.Path = ['/'] →
        (sampleServer.ServeHTTP sampleH sampleFS reqRootDots).1 =
          Response.status StatusNotFound) ∧
      (reqRootDots.URL.Path ≠ ['/'] →
        (sampleServer.ServeHTTP sampleH sampleFS reqRootDots).1 = Response.redirect ['/']) ∧
      (Clean reqRootDots.URL.Path = ['.'] →
        sampleServer.putFile sampleFS reqRootDots = (StatusForbidden, sampleFS))) :=
  ⟨⟨by decide, by decide⟩, by decide,
    ServeHTTP_root_path sampleH sampleServer sampleFS reqRootDots
      (Or.inr ⟨by decide, by decide⟩)⟩

/-- C7 as stated fails at requests the server receives: the authorised PUT
request for `/`, whose token the middleware would accept, is answered 404 Not
Found by the route for `/` and not 403 Forbidden, and the authorised PUT request
for `/a/..` is answered with the redirect to `/`; neither is answered by
`putFile`. -/
theorem ServeHTTP_root_not_forbidden :
    Clean reqRoot.URL.Path = ['/'] ∧
    (sampleServer.auth.authenticate sampleH reqRoot).1 = Outcome.serveHTTP ∧
    sampleServer.ServeHTTP sampleH sampleFS reqRoot =
      (Response.status StatusNotFound, sampleFS) ∧
    Response.status StatusNotFound ≠ Response.status StatusForbidden ∧
    Clean reqRootDots.URL.Path = ['/'] ∧
    (sampleServer.auth.authenticate sampleH reqRootDots).1 = Outcome.serveHTTP ∧
    sampleServer.ServeHTTP sampleH sampleFS reqRootDots =
      (Response.redirect ['/'], sampleFS) ∧
    Response.redirect ['/'] ≠ Response.status StatusForbidden := by
  decide

/-! ## Claim on the write-once store -/

theorem createRun_taken (s : Server) (F : Str) :
    ∀ (ps : List Str) (fs : FS), Taken F fs →
      ∀ st ∈ s.createRun fs ps, s.fullpath st.filepath = F →
        st.result = .error (.os .ErrExist) ∧ st.after = st.before ∧ st.created = false := by
  intro ps
  induction ps with
  | nil => intro fs _ st hst; simp [Server.createRun] at hst
  | cons p ps ih =>
    intro fs ht st hst hF
    simp only [Server.createRun, List.mem_cons] at hst
    rcases hst with h | h
    · subst h
      simp only at hF
      subst hF
      have hc := createFile_taken s fs p ht
      simp [hc, CreateStep.created]
    · exact ih _ (ht.grows (createFile_grows s fs p)) st h hF

theorem createRun_pairwise (s : Server) :
    ∀ (ps : List Str) (fs : FS),
      (s.createRun fs ps).Pairwise (fun a b =>
        a.created = true → s.fullpath b.filepath = s.fullpath a.filepath →
          b.result = .error (.os .ErrExist) ∧ b.after = b.before) := by
  intro ps
  induction ps with
  | nil => intro fs; simp [Server.createRun]
  | cons p ps ih =>
    intro fs
    simp only [Server.createRun]
    refine List.pairwise_cons.mpr ⟨?_, ih _⟩
    intro b hb hcr hF
    simp only [CreateStep.created] at hcr
    cases hres : (s.createFile fs p).1 with
    | error e => rw [hres] at hcr; simp at hcr
    | ok h =>
      have ht := createFile_ok s fs p h hres
      have := createRun_taken s _ ps _ ht b hb hF
      exact ⟨this.1, this.2.1⟩

theorem createRun_count (s : Server) (F : Str) :
    ∀ (ps : List Str) (fs : FS),
      ((s.createRun fs ps).filter
        (fun st => st.created && decide (s.fullpath st.filepath = F))).length ≤ 1 := by
  have hzero : ∀ (ps : List Str) (fs : FS), Taken F fs →
      (s.createRun fs ps).filter
        (fun st => st.created && decide (s.fullpath st.filepath = F)) = [] := by
    intro ps fs ht
    apply List.filter_eq_nil_iff.mpr
    intro st hst
    by_cases hF : s.fullpath st.filepath = F
    · have := (createRun_taken s F ps fs ht st hst hF).2.2
      simp [this]
    · simp [hF]
  intro ps
  induction ps with
  | nil => intro fs; simp [Server.createRun]
  | cons p ps ih =>
    intro fs
    simp only [Server.createRun]
    rw [List.filter_cons]
    split
    · rename_i hcond
      simp only [Bool.and_eq_true, decide_eq_true_eq, CreateStep.created] at hcond
      obtain ⟨hcr, hF⟩ := hcond
      cases hres : (s.createFile fs p).1 with
      | error e => rw [hres] at hcr; simp at hcr
      | ok h =>
        have ht := createFile_ok s fs p h hres
        rw [hF] at ht
        rw [hzero ps _ ht]
        simp
    · exact ih _

theorem putRun_taken (s : Server) (F : Str) :
    ∀ (rs : List Request) (fs : FS), Taken F fs →
      ∀ st ∈ s.putRun fs rs, s.fullpath (Clean st.request.URL.Path) = F →
        st.after = st.before ∧ (st.status = StatusConflict ∨ st.status = StatusForbidden) := by
  intro rs
  induction rs with
  | nil => intro fs _ st hst; simp [Server.putRun] at hst
  | cons r rs ih =>
    intro fs ht st hst hF
    simp only [Server.putRun, List.mem_cons] at hst
    rcases hst with h | h
    · subst h
      simp only at hF
      subst hF
      exact putFile_taken s fs r ht
    · exact ih _ (ht.grows (putFile_grows s fs r)) st h hF

theorem putRun_pairwise (s : Server) :
    ∀ (rs : List Request) (fs : FS),
      (s.putRun fs rs).Pairwise (fun a b =>
        a.status = StatusCreated →
        s.fullpath (Clean b.request.URL.Path) = s.fullpath (Clean a.request.URL.Path) →
          b.after = b.before ∧ (b.status = StatusConflict ∨ b.status = StatusForbidden)) := by
  intro rs
  induction rs with
  | nil => intro fs; simp [Server.putRun]
  | cons r rs ih =>
    intro fs
    simp only [Server.putRun]
    refine List.pairwise_cons.mpr ⟨?_, ih _⟩
    intro b hb hcr hF
    exact putRun_taken s _ rs _ (putFile_created s fs r hcr).2 b hb hF

/-- C4: in every run of `createFile` calls from any state, at most one call
returns a handle for a given full path, and every call after one that returned
a handle for the same full path returns `os.ErrExist` and leaves the state as it
was; `putFile` answers `os.ErrExist` with 409; and in every run of uploads, an
upload after one answered 201 for the same full path changes nothing and is not
answered 201. -/
theorem createFile_write_once (s : Server) (fs : FS) (ps : List Str) (rs : List Request)
    (F : Str) :
    ((s.createRun fs ps).filter
      (fun st => st.created && decide (s.fullpath st.filepath = F))).length ≤ 1 ∧
    (s.createRun fs ps).Pairwise (fun a b =>
      a.created = true → s.fullpath b.filepath = s.fullpath a.filepath →
        b.result = .error (.os .ErrExist) ∧ b.after = b.before) ∧
    (∀ (fs1 : FS) (r : Request), Clean r.URL.Path ≠ ['.'] →
      (s.createFile fs1 (Clean r.URL.Path)).1 = .error (.os .ErrExist) →
      s.putFile fs1 r = (StatusConflict, (s.createFile fs1 (Clean r.URL.Path)).2)) ∧
    (∀ (fs1 : FS) (r : Request), (s.putFile fs1 r).1 = StatusCreated →
      ∃ f, (s.createFile fs1 (Clean r.URL.Path)).1 = .ok f) ∧
    (s.putRun fs rs).Pairwise (fun a b =>
      a.status = StatusCreated →
      s.fullpath (Clean b.request.URL.Path) = s.fullpath (Clean a.request.URL.Path) →
        b.after = b.before ∧ b.status ≠ StatusCreated ∧
        (b.status = StatusConflict ∨ b.status = StatusForbidden)) := by
  refine ⟨createRun_count s F ps fs, createRun_pairwise s ps fs, ?_, ?_, ?_⟩
  · intro fs1 r hd he
    rcases putFile_cases s fs1 r with ⟨h, _⟩ | ⟨_, e, he', hp⟩ | ⟨_, f, hf, _⟩
    · exact absurd h hd
    · rw [he] at he'
      simp only [Except.error.injEq] at he'
      rw [hp, ← he']
      simp [Error.Is]
    · rw [he] at hf; simp at hf
  · intro fs1 r h
    exact (putFile_created s fs1 r h).1
  · refine (putRun_pairwise s rs fs).imp ?_
    intro a b hab hcr hF
    obtain ⟨h1, h2⟩ := hab hcr hF
    refine ⟨h1, ?_, h2⟩
    rcases h2 with h | h <;> rw [h] <;> decide

/-- C4 on the sample server: of four calls, three for the full path
`data/a/b.png`, the first returns a handle and the later two do not; of three
uploads, two to the same path, the first is answered 201 and keeps its bytes,
the second is answered 409. -/
theorem createFile_write_once_witness :
    (sampleServer.createRun sampleFS samplePaths).map (fun st => st.created) =
      [true, false, true, false] ∧
    (sampleServer.putRun sampleFS sampleUploads).map (fun st => st.status) =
      [StatusCreated, StatusConflict, StatusCreated] ∧
    ((sampleServer.putRun sampleFS sampleUploads).map (fun st => st.after)).getLast? =
      some [("data/c.png".toList, Node.file "third".toList),
        ("data/a/b.png".toList, Node.file "first".toList),
        ("data/a".toList, Node.dir), ("data".toList, Node.dir), (".".toList, Node.dir)] ∧
    ((sampleServer.createRun sampleFS samplePaths).filter
      (fun st => st.created &&
        decide (sampleServer.fullpath st.filepath = "data/a/b.png".toList))).length ≤ 1 :=
  ⟨by decide, by decide, by decide,
    (createFile_write_once sampleServer sampleFS samplePaths sampleUploads
      "data/a/b.png".toList).1⟩

end HttpUpload
